import Mathlib

/-!
Verification development for the `flowgen` repository: a Go tool that turns the
control-flow graph of one function into a Mermaid diagram.  The definitions
below are a shallow embedding of the functions in the repository's main source
file (`filterNoise`, `getEntryPoint`, `isEmptyPassThrough`, `resolveDestination`,
`getStructuralLabel`, `formatNodes`, `toNaturalLanguage`, and the rendering loop
of `analyzeCFG`).  Go strings are modelled at the byte level as `List Char`
(every byte the program manipulates — `\n`, `\t`, quotes, braces, ASCII text —
is a single-byte rune, so Go's byte-indexed `len`/slicing agrees with list
length/`take` on this fragment).  Blocks reference one another by index, as the
`cfg` package guarantees `Blocks[i].Index = i`; the Go loop in
`resolveDestination` is embedded with explicit fuel, and its termination is a
theorem rather than an assumption.
-/

namespace Flowgen

/-- Literal brace characters, kept out of string literals. -/
def lbChar : Char := Char.ofNat 123

def rbChar : Char := Char.ofNat 125

def qChar : Char := Char.ofNat 34

def sqChar : Char := Char.ofNat 39

/-- Binary operator token of a Go `ast.BinaryExpr` (`go/token`). -/
inductive GoOp where
  | eql | neq | lss | gtr | leq | geq | land | lor
  | opOther (raw : String)
deriving DecidableEq, Repr

/-- Source text of an operator token, as `go/printer` would render it.
Modelled from the spec: the printer is an external collaborator that
reconstructs verbatim source text. -/
def opText : GoOp → String
  | .eql => "=="
  | .neq => "!="
  | .lss => "<"
  | .gtr => ">"
  | .leq => "<="
  | .geq => ">="
  | .land => "&&"
  | .lor => "||"
  | .opOther raw => raw

/-- Shallow Go expression AST: exactly the shapes inspected by `filterNoise`
and `toNaturalLanguage` (`ast.Ident`, `ast.SelectorExpr`, `ast.CallExpr`,
`ast.UnaryExpr`, `ast.BinaryExpr`), with an opaque constructor for every other
expression.  Call arguments are never inspected by the program, so they are
carried as their raw source text. -/
inductive Expr where
  | ident (name : String)
  | selector (x : Expr) (sel : String)
  | call (fn : Expr) (argsRaw : String)
  | unary (op : String) (x : Expr)
  | binary (x : Expr) (op : GoOp) (y : Expr)
  | raw (text : String)
deriving DecidableEq, Repr

/-- Shallow Go statement/node AST: the node shapes inspected by `filterNoise`
and `toNaturalLanguage` (`ast.ExprStmt`, `ast.AssignStmt`, `ast.DeferStmt`,
`ast.IncDecStmt`, `ast.ReturnStmt`), a bare expression (CFG condition nodes),
and an opaque fallback for every other statement. -/
inductive Node where
  | exprStmt (x : Expr)
  | assignStmt (lhs rhs : List Expr)
  | deferStmt (call : Expr)
  | incDecStmt (x : Expr) (isInc : Bool)
  | returnStmt (results : List Expr)
  | exprNode (x : Expr)
  | otherStmt (text : String)
deriving DecidableEq, Repr

/-- Verbatim source text of an expression.  Modelled from the spec: the CFG
provider "is responsible for reconstructing verbatim source text for any
SyntaxNode on request" (`printer.Fprint` in the source, an external package). -/
def printRawE : Expr → String
  | .ident n => n
  | .selector x s => printRawE x ++ "." ++ s
  | .call f args => printRawE f ++ "(" ++ args ++ ")"
  | .unary op x => op ++ printRawE x
  | .binary x op y => printRawE x ++ " " ++ opText op ++ " " ++ printRawE y
  | .raw t => t

/-- Verbatim source text of a node (`printRawNode` in the source, delegating to
`go/printer`; modelled from the spec for the statement shapes). -/
def printRawNode : Node → String
  | .exprStmt x => printRawE x
  | .exprNode x => printRawE x
  | .assignStmt lhs rhs =>
      String.intercalate ", " (lhs.map printRawE) ++ " = " ++
        String.intercalate ", " (rhs.map printRawE)
  | .deferStmt c => "defer " ++ printRawE c
  | .incDecStmt x isInc => printRawE x ++ (if isInc then "++" else "--")
  | .returnStmt rs => match rs with
      | [] => "return"
      | _ => "return " ++ String.intercalate ", " (rs.map printRawE)
  | .otherStmt t => t

/-- Embedding of `toNaturalLanguage` (source lines 252–303): dispatch on the
node's syntactic shape, falling back to the raw source text. -/
def toNaturalLanguage (n : Node) : String :=
  match n with
  | .exprNode (.unary op x) =>
      if op = "!" then printRawE x ++ " is false" else printRawNode n
  | .exprNode (.binary x op y) =>
      let left := printRawE x
      let right := printRawE y
      match op with
      | .eql => left ++ " equals " ++ right
      | .neq => left ++ " does not equal " ++ right
      | .lss => left ++ " is less than " ++ right
      | .gtr => left ++ " is greater than " ++ right
      | .leq => left ++ " is at most " ++ right
      | .geq => left ++ " is at least " ++ right
      | .land => left ++ " AND " ++ right
      | .lor => left ++ " OR " ++ right
      | .opOther _ => printRawNode n
  | .assignStmt lhs rhs =>
      match lhs, rhs with
      | [l], [r] => "Set " ++ printRawE l ++ " to " ++ printRawE r
      | _, _ => printRawNode n
  | .incDecStmt x isInc =>
      if isInc then "Increase " ++ printRawE x ++ " by 1"
      else "Decrease " ++ printRawE x ++ " by 1"
  | .returnStmt rs =>
      match rs with
      | [] => "Return"
      | _ => "Return " ++ String.intercalate ", " (rs.map printRawE)
  | _ => printRawNode n

/-! ### Label formatter (`formatNodes`, source lines 233–250)

Each Go `strings.ReplaceAll` with a single-byte pattern is a per-byte map or
filter; `s[:77]` is `List.take 77`; `strings.TrimSpace` removes leading and
trailing white space. -/

/-- `strings.ReplaceAll(s, "\n", " ")`. -/
def goReplaceNewline (s : List Char) : List Char :=
  s.map (fun c => if c = '\n' then ' ' else c)

/-- `strings.ReplaceAll(s, "\t", "")` — the tab is removed, not replaced. -/
def goRemoveTab (s : List Char) : List Char :=
  s.filter (fun c => !(c == '\t'))

/-- `strings.ReplaceAll(s, "\"", "'")`. -/
def goReplaceQuote (s : List Char) : List Char :=
  s.map (fun c => if c = qChar then sqChar else c)

/-- `strings.ReplaceAll(s, "{", "")`. -/
def goRemoveLBrace (s : List Char) : List Char :=
  s.filter (fun c => !(c == lbChar))

/-- `strings.ReplaceAll(s, "}", "")`. -/
def goRemoveRBrace (s : List Char) : List Char :=
  s.filter (fun c => !(c == rbChar))

/-- The five replacement steps of `formatNodes`, in source order. -/
def normalizePhrase (s : List Char) : List Char :=
  goRemoveRBrace (goRemoveLBrace (goReplaceQuote (goRemoveTab (goReplaceNewline s))))

def ellipsisL : List Char := ['.', '.', '.']

/-- `if len(s) > 80 { s = s[:77] + "..." }`. -/
def goTruncate (s : List Char) : List Char :=
  if 80 < s.length then s.take 77 ++ ellipsisL else s

/-- White space in the sense of `unicode.IsSpace`, restricted to the ASCII
range (the only bytes `TrimSpace` can meet after the replacements above). -/
def isGoSpace (c : Char) : Bool :=
  c == ' ' || c == '\t' || c == '\n' || c == Char.ofNat 11 || c == Char.ofNat 12 || c == '\r'

/-- `strings.TrimSpace`. -/
def goTrimSpace (s : List Char) : List Char :=
  ((s.dropWhile isGoSpace).reverse.dropWhile isGoSpace).reverse

/-- The whole per-phrase processing applied by `formatNodes` to one humanized
phrase (source lines 236–247): normalize, truncate, trim. -/
def formatPhrase (s : List Char) : List Char :=
  goTrimSpace (goTruncate (normalizePhrase s))

/-- Embedding of `formatNodes` (source lines 233–250): humanize each node,
process each phrase, join with the Mermaid line separator. -/
def formatNodes (nodes : List Node) : String :=
  String.intercalate "<br>" (nodes.map (fun n => String.mk (formatPhrase (toNaturalLanguage n).toList)))

/-! ### Noise filter (`filterNoise`, source lines 160–194) -/

/-- The head expression the `switch` of `filterNoise` extracts from a node
(`nil` modelled as `none`): the expression of a bare expression statement, the
single right-hand side of an assignment with exactly one `Rhs`, or the call of
a `defer`. -/
def headExpr : Node → Option Expr
  | .exprStmt x => some x
  | .assignStmt _ rhs => if rhs.length = 1 then rhs.head? else none
  | .deferStmt c => some c
  | _ => none

/-- The fixed denylist test of `filterNoise` (source line 182). -/
def denyName (s : String) : Bool :=
  s == "metrics" || s == "span" || s == "tracing" || s == "log" || s == "logger"

/-- `isNoise` as computed inside the loop of `filterNoise`: the head expression
is a call whose callee is a selector on a bare identifier in the denylist. -/
def isNoise (n : Node) : Bool :=
  match headExpr n with
  | some (.call (.selector (.ident name) _) _) => denyName name
  | _ => false

/-- Embedding of `filterNoise` (source lines 160–194): keep, in order, exactly
the nodes that are not noise. -/
def filterNoise (nodes : List Node) : List Node :=
  nodes.filter (fun n => !isNoise n)

/-! ### Block graph (`cfg.Block`), pass-through resolution, entry points -/

/-- A basic block of the control-flow graph (`cfg.Block`): an ordered node
list, its index, and the indices of its 0, 1 or 2 successors.  The `cfg`
package stores successors as pointers into the same `Blocks` slice and
guarantees `Blocks[i].Index = i`; the embedding references blocks by index
and states that guarantee as the well-formedness predicate `WF`. -/
structure Block where
  index : Nat
  nodes : List Node
  succs : List Nat
deriving DecidableEq, Repr

/-- The block list of one function's control-flow graph (`flowGraph.Blocks`). -/
abbrev CFG := List Block

/-- Dereferencing a successor pointer: the block at position `i`. -/
def findBlock (g : CFG) (i : Nat) : Option Block := g.get? i

/-- Executable well-formedness check: every block stores its own position as
its index, and every successor index is in range. -/
def wfB (g : CFG) : Bool :=
  ((List.range g.length).all (fun i => ((g.get? i).map Block.index) == some i)) &&
    (g.all (fun b => b.succs.all (fun j => decide (j < g.length))))

/-- Well-formedness of a CFG, as guaranteed by the `cfg` provider. -/
def WF (g : CFG) : Prop := wfB g = true

/-- Embedding of `isEmptyPassThrough` (source lines 203–205). -/
def isEmptyPassThrough (b : Block) : Bool :=
  b.nodes.length == 0 && b.succs.length == 1

/-- The loop body of `resolveDestination`, with explicit fuel standing for the
unbounded `for` loop (termination is proved in `resolveAux_isSome`): while the
current block is an empty pass-through, stop if its index was already visited,
otherwise mark it and move to its single successor.  A failed successor
dereference (impossible on a well-formed graph) is `none`. -/
def resolveAux (g : CFG) : Nat → Block → List Nat → Option Block
  | 0, _, _ => none
  | fuel + 1, curr, visited =>
    if isEmptyPassThrough curr then
      if curr.index ∈ visited then some curr
      else
        (curr.succs.head?.bind (findBlock g)).bind
          (fun nxt => resolveAux g fuel nxt (curr.index :: visited))
    else some curr

/-- Embedding of `resolveDestination` (source lines 207–218).  The fuel
`g.length + 1` is enough for the visited-set loop to run to completion
(theorem `resolve_terminates`). -/
def resolveDestination (g : CFG) (b : Block) : Option Block :=
  resolveAux g (g.length + 1) b []

/-- One deterministic step of the pass-through chain: defined exactly when the
block is an empty pass-through, in which case it dereferences the single
successor.  Specification device for reasoning about `resolveDestination`. -/
def step (g : CFG) (b : Block) : Option Block :=
  if isEmptyPassThrough b then (b.succs.head?).bind (findBlock g) else none

/-- `k` steps of the pass-through chain. -/
def stepN (g : CFG) : Nat → Block → Option Block
  | 0, b => some b
  | k + 1, b => (step g b).bind (stepN g k)

/-- Number of block indices the visited set of `resolveDestination` has not
yet recorded: the loop's termination measure. -/
def unvisitedCount (g : CFG) (visited : List Nat) : Nat :=
  ((List.range g.length).filter (fun i => !(decide (i ∈ visited)))).length

/-- `fmt.Sprintf("B%d", i)`. -/
def blockId (i : Nat) : String := "B" ++ toString i

/-- `fmt.Sprintf("B%d_setup", i)`. -/
def setupId (i : Nat) : String := "B" ++ toString i ++ "_setup"

/-- Embedding of `getEntryPoint` (source lines 196–201). -/
def getEntryPoint (b : Block) : String :=
  if b.nodes.length > 1 && b.succs.length == 2 then setupId b.index
  else blockId b.index

/-- Embedding of `getStructuralLabel` (source lines 220–231). -/
def getStructuralLabel (block : Block) : String :=
  if block.index = 0 then "Start"
  else if block.succs.length = 0 then "End / Return"
  else if block.succs.length = 2 then "Loop / Switch Entry"
  else "Merge Point"

/-! ### Diagram renderer (the body of `analyzeCFG`, source lines 86–156)

Each `buf.WriteString` call of the rendering loop is embedded as one `Dir`
directive carrying exactly the data formatted into that line; `Dir.toLine`
reproduces the literal line and `toOutput` the concatenated buffer. -/

/-- One emitted line of the Mermaid buffer. -/
inductive Dir where
  | classLine (text : String)
  | rootNode (startFunc : String)
  | rootEdge (entry : String)
  | setupNode (i : Nat) (label : String)
  | condNode (i : Nat) (label : String)
  | setupEdge (i : Nat)
  | plainNode (i : Nat) (isDecision : Bool) (label : String) (isEnd : Bool)
  | edge (exitPoint : String) (arrow : String) (entry : String)
deriving DecidableEq, Repr

/-- The literal text of one emitted line (the `fmt.Sprintf` format strings of
source lines 89–152; `\x7b`/`\x7d` are the literal braces of the Mermaid
decision shape). -/
def Dir.toLine : Dir → String
  | .classLine s => s
  | .rootNode f => "    ROOT([\"func " ++ f ++ "\"]):::root\n"
  | .rootEdge en => "    ROOT --> " ++ en ++ ";\n"
  | .setupNode i l => "    " ++ blockId i ++ "_setup[\"" ++ l ++ "\"];\n"
  | .condNode i l => "    " ++ blockId i ++ "\x7b\"" ++ l ++ "\"\x7d;\n"
  | .setupEdge i => "    " ++ setupId i ++ " --> " ++ blockId i ++ ";\n"
  | .plainNode i dec l e =>
      "    " ++ blockId i ++ (if dec then "\x7b\"" else "[\"") ++ l ++
        (if dec then "\"\x7d" else "\"]") ++ (if e then ":::endNode" else "") ++ ";\n"
  | .edge ex ar en => "    " ++ ex ++ " " ++ ar ++ " " ++ en ++ ";\n"

def classDefRootLine : String :=
  "    classDef root fill:#007acc,stroke:#fff,stroke-width:2px,color:#fff;\n"

def classDefEndLine : String :=
  "    classDef endNode fill:#cc3300,stroke:#fff,stroke-width:2px,color:#fff;\n\n"

/-- Node-declaration lines for one non-pass-through block (source lines
102–127): either setup + condition + forced edge when the block is split, or a
single node whose shape, label and style follow the successor count. -/
def renderNodes (b : Block) : List Dir :=
  if b.nodes.length > 1 && b.succs.length == 2 then
    [Dir.setupNode b.index (formatNodes (b.nodes.take (b.nodes.length - 1))),
     Dir.condNode b.index (formatNodes (b.nodes.drop (b.nodes.length - 1))),
     Dir.setupEdge b.index]
  else
    let label := formatNodes b.nodes
    let label := if b.nodes.length == 0 then getStructuralLabel b else label
    [Dir.plainNode b.index (b.succs.length == 2) label (b.succs.length == 0)]

/-- Resolve one raw successor index to its effective destination block. -/
def resolveSucc (g : CFG) (j : Nat) : Option Block :=
  (findBlock g j).bind (fun b => resolveDestination g b)

/-- Edge lines for one block (source lines 129–153): one unlabeled edge for a
single successor, a True and a False edge for two, classified as loop
(`-.->`) exactly when the resolved destination's index is at most the source
block's index. -/
def renderEdges (g : CFG) (b : Block) : Option (List Dir) :=
  if b.succs.length == 1 then
    ((b.succs.get? 0).bind (resolveSucc g)).map (fun dest =>
      [Dir.edge (blockId b.index)
        (if dest.index ≤ b.index then "-.->|Loop|" else "-->")
        (getEntryPoint dest)])
  else if b.succs.length == 2 then
    ((b.succs.get? 0).bind (resolveSucc g)).bind (fun destTrue =>
      ((b.succs.get? 1).bind (resolveSucc g)).map (fun destFalse =>
        [Dir.edge (blockId b.index)
           (if destTrue.index ≤ b.index then "-.->|Loop True|" else "-->|True|")
           (getEntryPoint destTrue),
         Dir.edge (blockId b.index)
           (if destFalse.index ≤ b.index then "-.->|Loop False|" else "-->|False|")
           (getEntryPoint destFalse)]))
  else some []

/-- One iteration of the rendering loop (source lines 97–154): a pass-through
block is skipped entirely; any other block contributes its node lines followed
by its edge lines. -/
def renderBlock (g : CFG) (b : Block) : Option (List Dir) :=
  if isEmptyPassThrough b then some []
  else (renderEdges g b).map (fun es => renderNodes b ++ es)

/-- The rendering loop over a block list, in order. -/
def renderBlocks (g : CFG) : List Block → Option (List Dir)
  | [] => some []
  | b :: rest =>
    (renderBlock g b).bind (fun ds => (renderBlocks g rest).map (fun ds' => ds ++ ds'))

/-- The whole rendering pass of `analyzeCFG` (source lines 86–156): style
prologue, synthetic root node, root edge to the resolved first block's entry
point, then every block in index order. -/
def renderAll (g : CFG) (startFunc : String) : Option (List Dir) :=
  ((findBlock g 0).bind (fun b => resolveDestination g b)).bind (fun first =>
    (renderBlocks g g).map (fun ds =>
      [Dir.classLine classDefRootLine, Dir.classLine classDefEndLine,
       Dir.rootNode startFunc, Dir.rootEdge (getEntryPoint first)] ++ ds))

/-- The buffer contents: concatenation of all emitted lines. -/
def toOutput (ds : List Dir) : String := String.join (ds.map Dir.toLine)

/-- The pre-render noise-filtering pass (source lines 82–84): replace each
block's node list by its filtered form. -/
def filterGraph (g : CFG) : CFG :=
  g.map (fun b => { b with nodes := filterNoise b.nodes })

/-! ### Function-target resolution (source lines 59–77) -/

/-- A top-level function declaration together with the control-flow graph the
external `cfg` provider builds from its body (`cfg.New` is out of scope per
the spec; the declaration carries the graph it would produce). -/
structure FuncDecl where
  name : String
  body : CFG
deriving DecidableEq, Repr

/-- Embedding of the declaration hunt of `analyzeCFG` (source lines 62–73):
`ast.Inspect` over every file of every package, assigning `targetDecl` at each
`FuncDecl` whose name matches, so the last match encountered wins.  `files` is
the flattened list of syntax files, each a list of its declarations. -/
def findTargetDecl (files : List (List FuncDecl)) (startFunc : String) : Option FuncDecl :=
  files.foldl
    (fun acc file =>
      file.foldl (fun acc2 fn => if fn.name = startFunc then some fn else acc2) acc)
    none

/-- A single quote as a string (kept out of string literals). -/
def sq : String := String.mk [sqChar]

/-- Embedding of `analyzeCFG` after package loading (source lines 59–156):
find the target declaration (error if absent), filter noise from its graph,
and render; the `none` branch of the renderer (unreachable on the provider's
well-formed graphs) is mapped to an error as well. -/
def analyzeCFG (files : List (List FuncDecl)) (startFunc : String) : Except String String :=
  match findTargetDecl files startFunc with
  | none => Except.error ("function " ++ sq ++ startFunc ++ sq ++ " not found")
  | some decl =>
    match renderAll (filterGraph decl.body) startFunc with
    | none => Except.error "malformed control-flow graph"
    | some ds => Except.ok (toOutput ds)

/-! ### Specification devices and concrete test data for the claims -/

/-- Does an expression's head call target a denylisted receiver: it is a call
whose callee is a selector access on a bare identifier in the denylist. -/
def headCallDenied (e : Expr) : Bool :=
  match e with
  | .call (.selector (.ident name) _) _ => denyName name
  | _ => false

/-- The noise shape exactly as claim C2 words it: a bare expression statement,
a single-target single-source assignment, or a deferred call, whose head call
expression's callee is a selector access on a denylisted bare identifier. -/
def claimNoiseShape (n : Node) : Bool :=
  match n with
  | .exprStmt e => headCallDenied e
  | .assignStmt lhs rhs =>
      lhs.length == 1 && rhs.length == 1 &&
        (match rhs.head? with
         | some e => headCallDenied e
         | none => false)
  | .deferStmt c => headCallDenied c
  | _ => false

/-- The amended noise shape: as claim C2, except that an assignment qualifies
whenever it has exactly one right-hand-side expression, regardless of how many
targets it has (the code never inspects `Lhs`). -/
def amendedNoiseShape (n : Node) : Bool :=
  match n with
  | .exprStmt e => headCallDenied e
  | .assignStmt _ rhs =>
      rhs.length == 1 &&
        (match rhs.head? with
         | some e => headCallDenied e
         | none => false)
  | .deferStmt c => headCallDenied c
  | _ => false

/-- Per-character description of the five replacement steps of `formatNodes`:
newline becomes a space, a tab is removed, a double quote becomes a single
quote, braces are removed, everything else is kept. -/
def charNorm (c : Char) : Option Char :=
  if c = '\n' then some ' '
  else if c = '\t' then none
  else if c = qChar then some sqChar
  else if c = lbChar ∨ c = rbChar then none
  else some c

/-- The block index a directive declares a node for, if it is a block-node
declaration line (setup, condition or plain node). -/
def nodeIndex? : Dir → Option Nat
  | .setupNode i _ => some i
  | .condNode i _ => some i
  | .plainNode i _ _ _ => some i
  | _ => none

/-- Indices of all declared block nodes, in emission order. -/
def nodeIndices (ds : List Dir) : List Nat := ds.filterMap nodeIndex?

/-- The node identifiers declared by the emitted directives. -/
def declaredIds (ds : List Dir) : List String :=
  ds.filterMap (fun d =>
    match d with
    | .setupNode i _ => some (setupId i)
    | .condNode i _ => some (blockId i)
    | .plainNode i _ _ _ => some (blockId i)
    | _ => none)

/-- Is an arrow string one of the three dashed loop arrows. -/
def isLoopArrow (ar : String) : Bool :=
  ar == "-.->|Loop|" || ar == "-.->|Loop True|" || ar == "-.->|Loop False|"

/-- A node the claim-C2 shape does not cover but the code drops: a two-target
assignment whose single right-hand side is a denylisted call. -/
def noiseDropNode : Node :=
  .assignStmt [.ident "a", .ident "b"] [.call (.selector (.ident "metrics") "Count") ""]

/-- An ordinary kept node. -/
def noiseKeepNode : Node := .incDecStmt (.ident "x") true

/-- Witness graph: `i := 0; while i < 3 { i++ }; return i`. -/
def gw : CFG :=
  [⟨0, [.assignStmt [.ident "i"] [.raw "0"]], [1]⟩,
   ⟨1, [.exprNode (.binary (.ident "i") .lss (.raw "3"))], [2, 3]⟩,
   ⟨2, [.incDecStmt (.ident "i") true], [1]⟩,
   ⟨3, [.returnStmt [.ident "i"]], []⟩]

/-- A graph whose blocks 1 and 2 form a cycle of empty pass-through blocks. -/
def gcyc : CFG := [⟨0, [], [1]⟩, ⟨1, [], [2]⟩, ⟨2, [], [1]⟩]

def gcycBlock0 : Block := ⟨0, [], [1]⟩

/-- Counterexample graph for claim C8: block 1 is an empty pass-through whose
single successor is itself (an empty infinite loop), reached from block 0. -/
def gPT : CFG := [⟨0, [.returnStmt []], [1]⟩, ⟨1, [], [1]⟩]

def gPTBlock1 : Block := ⟨1, [], [1]⟩

/-- The directives `renderAll gPT "f"` emits. -/
def dsPT : List Dir :=
  [Dir.classLine classDefRootLine, Dir.classLine classDefEndLine,
   Dir.rootNode "f", Dir.rootEdge (blockId 0),
   Dir.plainNode 0 false "Return" false,
   Dir.edge (blockId 0) "-->" (blockId 1)]

/-- The directives `renderAll gw "f"` emits. -/
def dsGw : List Dir :=
  [Dir.classLine classDefRootLine, Dir.classLine classDefEndLine,
   Dir.rootNode "f", Dir.rootEdge (blockId 0),
   Dir.plainNode 0 false "Set i to 0" false,
   Dir.edge (blockId 0) "-->" (blockId 1),
   Dir.plainNode 1 true "i is less than 3" false,
   Dir.edge (blockId 1) "-->|True|" (blockId 2),
   Dir.edge (blockId 1) "-->|False|" (blockId 3),
   Dir.plainNode 2 false "Increase i by 1" false,
   Dir.edge (blockId 2) "-.->|Loop|" (blockId 1),
   Dir.plainNode 3 false "Return i" true]

/-- Two distinct declarations sharing the name `f`. -/
def declF1 : FuncDecl := ⟨"f", [⟨0, [.returnStmt []], []⟩]⟩

def declF2 : FuncDecl := ⟨"f", [⟨0, [.returnStmt [.raw "1"]], []⟩]⟩

/-- A declaration named `g`, used to request an absent name. -/
def declG : FuncDecl := ⟨"g", [⟨0, [.returnStmt []], []⟩]⟩

/-- A block that satisfies the split condition. -/
def splitBlockW : Block := ⟨1, [.otherStmt "a", .otherStmt "b"], [2, 3]⟩

/-- A normalized-form-86-character phrase with a non-space head. -/
def phraseLongW : List Char := 'a' :: List.replicate 85 'b'

def phraseShortW : List Char := ['a']

/-- A phrase of 85 characters starting with white space: truncation keeps the
leading spaces, and the final trim then eats them. -/
def phraseLeadingSpace : List Char := List.replicate 5 ' ' ++ List.replicate 80 'x'

/-- A short phrase with trailing white space: trimmed, hence not verbatim. -/
def phraseTrailingSpace : List Char := ['a', ' ']

/-! ## Theorems -/

/-! ### Claim C2 — the noise filter -/

lemma isNoise_eq_amended (n : Node) : isNoise n = amendedNoiseShape n := by
  rcases n with x | ⟨lhs, rhs⟩ | c | ⟨x, i⟩ | rs | x | t
  case assignStmt =>
    rcases rhs with _ | ⟨e, rest⟩
    · rfl
    · rcases rest with _ | ⟨e2, rest2⟩
      · show isNoise (.assignStmt lhs [e]) = _
        rcases e with nm | ⟨x, s⟩ | ⟨f, a⟩ | ⟨op, x⟩ | ⟨x, op, y⟩ | t
        case call =>
          rcases f with nm | ⟨x, s⟩ | ⟨f2, a2⟩ | ⟨op, x⟩ | ⟨x, op, y⟩ | t <;>
            first
            | rfl
            | (rcases x with nm2 | ⟨x2, s2⟩ | ⟨f3, a3⟩ | ⟨op2, x2⟩ | ⟨x2, op2, y2⟩ | t2 <;> rfl)
        all_goals rfl
      · rfl
  case exprStmt =>
    rcases x with nm | ⟨x, s⟩ | ⟨f, a⟩ | ⟨op, x⟩ | ⟨x, op, y⟩ | t
    case call =>
      rcases f with nm | ⟨x, s⟩ | ⟨f2, a2⟩ | ⟨op, x⟩ | ⟨x, op, y⟩ | t <;>
        first
        | rfl
        | (rcases x with nm2 | ⟨x2, s2⟩ | ⟨f3, a3⟩ | ⟨op2, x2⟩ | ⟨x2, op2, y2⟩ | t2 <;> rfl)
    all_goals rfl
  case deferStmt =>
    rcases c with nm | ⟨x, s⟩ | ⟨f, a⟩ | ⟨op, x⟩ | ⟨x, op, y⟩ | t
    case call =>
      rcases f with nm | ⟨x, s⟩ | ⟨f2, a2⟩ | ⟨op, x⟩ | ⟨x, op, y⟩ | t <;>
        first
        | rfl
        | (rcases x with nm2 | ⟨x2, s2⟩ | ⟨f3, a3⟩ | ⟨op2, x2⟩ | ⟨x2, op2, y2⟩ | t2 <;> rfl)
    all_goals rfl
  all_goals rfl

/-- Claim C2 (corrected): `filterNoise` returns a subsequence of its input in
the original order, and it drops a node exactly when the node is a bare
expression statement, an assignment with exactly one right-hand-side
expression (regardless of the number of targets), or a deferred call, whose
head call expression's callee is a selector access on a bare identifier in the
fixed denylist; every other node is kept. -/
theorem filterNoise_amended_spec (nodes : List Node) :
    List.Sublist (filterNoise nodes) nodes ∧
    filterNoise nodes = nodes.filter (fun n => !amendedNoiseShape n) ∧
    (∀ n, n ∈ filterNoise nodes ↔ (n ∈ nodes ∧ amendedNoiseShape n = false)) := by
  have heq : filterNoise nodes = nodes.filter (fun n => !amendedNoiseShape n) := by
    unfold filterNoise
    congr 1
    funext n
    rw [isNoise_eq_amended]
  refine ⟨List.filter_sublist _, heq, fun n => ?_⟩
  rw [heq, List.mem_filter]
  simp

/-- Claim C2 witness: on a concrete two-node list, the filter output is a
subsequence of the input. -/
theorem filterNoise_amended_spec_witness :
    List.Sublist (filterNoise [noiseKeepNode, noiseDropNode]) [noiseKeepNode, noiseDropNode] :=
  (filterNoise_amended_spec [noiseKeepNode, noiseDropNode]).1

/-- Claim C2 counterexample: a two-target assignment whose single right-hand
side is a call on `metrics` is none of the three shapes the claim describes
(it is not single-target), yet `filterNoise` drops it — refuting "keeps every
node that is not one of those three shapes". -/
theorem filterNoise_claim_counterexample :
    filterNoise [noiseDropNode] = [] ∧ claimNoiseShape noiseDropNode = false := by
  constructor <;> rfl

/-! ### Claim C1 — function-name resolution -/

lemma getLast?_append_or {α : Type} (l₁ l₂ : List α) :
    (l₁ ++ l₂).getLast? = l₂.getLast?.or l₁.getLast? := by
  cases l₂ with
  | nil => simp [Option.none_or]
  | cons b t =>
    rw [List.getLast?_append_cons]
    cases h : (b :: t).getLast? with
    | none => exact absurd (List.getLast?_eq_none_iff.mp h) (List.cons_ne_nil b t)
    | some a => rfl

lemma foldl_findDecl_eq (s : String) (file : List FuncDecl) (acc : Option FuncDecl) :
    file.foldl (fun acc2 fn => if fn.name = s then some fn else acc2) acc
      = ((file.filter (fun d => d.name == s)).getLast?).or acc := by
  induction file generalizing acc with
  | nil => simp [Option.none_or]
  | cons fn file ih =>
    rw [List.foldl_cons, List.filter_cons, ih]
    by_cases h : fn.name = s
    · have hb : (fn.name == s) = true := by simp [h]
      rw [if_pos h, if_pos hb]
      cases hl : (file.filter (fun d => d.name == s)).getLast? with
      | none =>
        have hnil : file.filter (fun d => d.name == s) = [] := List.getLast?_eq_none_iff.mp hl
        simp [hnil, Option.none_or]
      | some a =>
        have hne : file.filter (fun d => d.name == s) ≠ [] := by
          intro hnil
          rw [hnil] at hl
          simp at hl
        obtain ⟨b, t, hbt⟩ := List.exists_cons_of_ne_nil hne
        rw [hbt] at hl ⊢
        rw [List.getLast?_cons_cons, hl]
        rfl
    · have hb : ¬ ((fn.name == s) = true) := by simp [h]
      rw [if_neg h, if_neg hb]

lemma findTargetDecl_foldl (files : List (List FuncDecl)) (s : String) (acc : Option FuncDecl) :
    files.foldl
        (fun acc file =>
          file.foldl (fun acc2 fn => if fn.name = s then some fn else acc2) acc)
        acc
      = ((files.flatten.filter (fun d => d.name == s)).getLast?).or acc := by
  induction files generalizing acc with
  | nil => simp [Option.none_or]
  | cons file files ih =>
    rw [List.foldl_cons, ih, foldl_findDecl_eq, List.flatten_cons, List.filter_append,
      getLast?_append_or, Option.or_assoc]

/-- Claim C1 (corrected): the declaration hunt never fails on an ambiguous
name — it returns the last declaration with the requested name encountered in
traversal order, and the whole operation fails (producing an error and no
diagram output) exactly when no declaration matches. -/
theorem findTargetDecl_last_match (files : List (List FuncDecl)) (s : String) :
    findTargetDecl files s = (files.flatten.filter (fun d => d.name == s)).getLast? ∧
    (findTargetDecl files s = none ↔ ∀ d ∈ files.flatten, d.name ≠ s) ∧
    ((∀ d ∈ files.flatten, d.name ≠ s) →
      analyzeCFG files s = Except.error ("function " ++ sq ++ s ++ sq ++ " not found")) := by
  have h1 : findTargetDecl files s = (files.flatten.filter (fun d => d.name == s)).getLast? := by
    unfold findTargetDecl
    rw [findTargetDecl_foldl]
    cases (files.flatten.filter (fun d => d.name == s)).getLast? <;> rfl
  have h2 : findTargetDecl files s = none ↔ ∀ d ∈ files.flatten, d.name ≠ s := by
    rw [h1, List.getLast?_eq_none_iff, List.filter_eq_nil_iff]
    simp
  refine ⟨h1, h2, fun hall => ?_⟩
  unfold analyzeCFG
  rw [h2.mpr hall]

/-- Claim C1 witness: requesting the absent name `f` fails with the
not-found error. -/
theorem findTargetDecl_last_match_witness :
    analyzeCFG [[declG]] "f" = Except.error ("function " ++ sq ++ "f" ++ sq ++ " not found") :=
  (findTargetDecl_last_match [[declG]] "f").2.2 (by decide)

/-- Claim C1 counterexample: two declarations named `f` exist, so the claim
demands an error and no diagram output, yet the operation succeeds (using the
last declaration found). -/
theorem findTargetDecl_claim_counterexample :
    (([[declF1, declF2]] : List (List FuncDecl)).flatten.filter (fun d => d.name == "f")).length = 2 ∧
    findTargetDecl [[declF1, declF2]] "f" = some declF2 ∧
    (analyzeCFG [[declF1, declF2]] "f").isOk = true := by
  refine ⟨rfl, rfl, ?_⟩
  rfl

/-! ### Claim C4 — the split decision -/

lemma drop_length_sub_one_eq {α : Type} (l : List α) (lst : α) (h : l.getLast? = some lst) :
    l.drop (l.length - 1) = [lst] := by
  rcases List.eq_nil_or_concat l with rfl | ⟨l', a, rfl⟩
  · simp at h
  · rw [List.concat_eq_append] at h ⊢
    rw [List.getLast?_concat] at h
    have ha : a = lst := by injection h
    subst ha
    rw [List.length_append, List.length_singleton, Nat.add_sub_cancel, List.drop_left]

/-- Claim C4 (confirmed): the renderer emits a setup node plus a condition
node for a block exactly when the block has more than one statement and
exactly two successors; when it does, the condition label is the final
statement, the setup label is all preceding statements, and the two parts
concatenate back to the block's statement list. -/
theorem split_decision_spec (b : Block) :
    ((∃ sl cl, Dir.setupNode b.index sl ∈ renderNodes b ∧ Dir.condNode b.index cl ∈ renderNodes b)
        ↔ (1 < b.nodes.length ∧ b.succs.length = 2)) ∧
    (1 < b.nodes.length ∧ b.succs.length = 2 →
      ∃ lst, b.nodes.getLast? = some lst ∧
        renderNodes b =
          [Dir.setupNode b.index (formatNodes b.nodes.dropLast),
           Dir.condNode b.index (formatNodes [lst]),
           Dir.setupEdge b.index] ∧
        b.nodes.dropLast ++ [lst] = b.nodes) := by
  by_cases hs : (b.nodes.length > 1 && b.succs.length == 2) = true
  · have hpair : 1 < b.nodes.length ∧ b.succs.length = 2 := by
      have hh := (Bool.and_eq_true _ _).mp hs
      exact ⟨by simpa using hh.1, by simpa using hh.2⟩
    have hne : b.nodes ≠ [] := by
      intro h0
      rw [h0] at hpair
      simp at hpair
    obtain ⟨lst, hlst⟩ : ∃ lst, b.nodes.getLast? = some lst := by
      cases h : b.nodes.getLast? with
      | none => exact absurd (List.getLast?_eq_none_iff.mp h) hne
      | some a => exact ⟨a, rfl⟩
    have hdrop : b.nodes.drop (b.nodes.length - 1) = [lst] :=
      drop_length_sub_one_eq _ _ hlst
    have hrn : renderNodes b =
        [Dir.setupNode b.index (formatNodes b.nodes.dropLast),
         Dir.condNode b.index (formatNodes [lst]),
         Dir.setupEdge b.index] := by
      unfold renderNodes
      rw [if_pos hs, hdrop, ← List.dropLast_eq_take]
    refine ⟨⟨fun _ => hpair, fun _ => ?_⟩, fun _ => ⟨lst, hlst, hrn, ?_⟩⟩
    · exact ⟨formatNodes b.nodes.dropLast, formatNodes [lst],
        by rw [hrn]; exact List.mem_cons_self _ _,
        by rw [hrn]; exact List.mem_cons_of_mem _ (List.mem_cons_self _ _)⟩
    · calc b.nodes.dropLast ++ [lst]
          = b.nodes.take (b.nodes.length - 1) ++ b.nodes.drop (b.nodes.length - 1) := by
            rw [List.dropLast_eq_take, hdrop]
      _ = b.nodes := List.take_append_drop _ _
  · have hforward : ¬ (1 < b.nodes.length ∧ b.succs.length = 2) := by
      intro hc
      exact hs (by simp [hc.1, hc.2])
    have hrn : renderNodes b =
        [Dir.plainNode b.index (b.succs.length == 2)
          (if b.nodes.length == 0 then getStructuralLabel b else formatNodes b.nodes)
          (b.succs.length == 0)] := by
      unfold renderNodes
      rw [if_neg hs]
    refine ⟨⟨fun hc => ?_, fun hc => absurd hc hforward⟩, fun hc => absurd hc hforward⟩
    obtain ⟨sl, cl, hmem, _⟩ := hc
    rw [hrn] at hmem
    simp at hmem

/-- Claim C4 witness: a concrete two-statement two-successor block is split
into the setup/condition pair, with the statement list preserved. -/
theorem split_decision_spec_witness :
    ∃ lst, splitBlockW.nodes.getLast? = some lst ∧
      renderNodes splitBlockW =
        [Dir.setupNode splitBlockW.index (formatNodes splitBlockW.nodes.dropLast),
         Dir.condNode splitBlockW.index (formatNodes [lst]),
         Dir.setupEdge splitBlockW.index] ∧
      splitBlockW.nodes.dropLast ++ [lst] = splitBlockW.nodes :=
  (split_decision_spec splitBlockW).2 (by constructor <;> decide)

/-! ### Claims C6 and C7 — the label formatter -/

lemma normalizePhrase_cons (c : Char) (s : List Char) :
    normalizePhrase (c :: s) = (charNorm c).toList ++ normalizePhrase s := by
  unfold normalizePhrase goReplaceNewline goRemoveTab goReplaceQuote goRemoveLBrace goRemoveRBrace
  by_cases h1 : c = '\n'
  · subst h1
    simp +decide [List.map_cons, List.filter_cons, charNorm, lbChar, rbChar, qChar, sqChar]
  by_cases h2 : c = '\t'
  · subst h2
    simp +decide [List.map_cons, List.filter_cons, charNorm, lbChar, rbChar, qChar, sqChar]
  by_cases h3 : c = qChar
  · subst h3
    simp +decide [List.map_cons, List.filter_cons, charNorm, lbChar, rbChar, qChar, sqChar]
  by_cases h4 : c = lbChar
  · subst h4
    simp +decide [List.map_cons, List.filter_cons, charNorm, lbChar, rbChar, qChar, sqChar]
  by_cases h5 : c = rbChar
  · subst h5
    simp +decide [List.map_cons, List.filter_cons, charNorm, lbChar, rbChar, qChar, sqChar]
  · have b2 : (!(c == '\t')) = true := by simp [h2]
    have b4 : (!(c == lbChar)) = true := by simp [h4]
    have b5 : (!(c == rbChar)) = true := by simp [h5]
    simp only [List.map_cons]
    rw [if_neg h1]
    rw [List.filter_cons, if_pos b2]
    simp only [List.map_cons]
    rw [if_neg h3]
    rw [List.filter_cons, if_pos b4]
    rw [List.filter_cons, if_pos b5]
    have hcn : charNorm c = some c := by
      unfold charNorm
      rw [if_neg h1, if_neg h2, if_neg h3, if_neg (not_or.mpr ⟨h4, h5⟩)]
    rw [hcn]
    rfl

lemma normalizePhrase_eq_filterMap (s : List Char) :
    normalizePhrase s = s.filterMap charNorm := by
  induction s with
  | nil => rfl
  | cons c s ih =>
    rw [normalizePhrase_cons, List.filterMap_cons, ih]
    cases charNorm c <;> rfl

/-- Claim C7 (corrected): the per-phrase normalization replaces each newline
with a single space, removes each tab outright (two words separated only by a
tab end up concatenated), replaces double quotes with single quotes, strips
brace characters and keeps everything else; the emitted label is that
normalization followed by truncation and surrounding-whitespace trimming, and
never contains a tab. -/
theorem normalize_chars_spec (s : List Char) :
    normalizePhrase s = s.filterMap charNorm ∧
    formatPhrase s = goTrimSpace (goTruncate (s.filterMap charNorm)) ∧
    charNorm '\n' = some ' ' ∧ charNorm '\t' = none ∧
    charNorm qChar = some sqChar ∧ charNorm lbChar = none ∧ charNorm rbChar = none ∧
    (∀ c ∈ normalizePhrase s, c ≠ '\t') := by
  have h := normalizePhrase_eq_filterMap s
  refine ⟨h, by unfold formatPhrase; rw [h], by decide, by decide, by decide, by decide, by decide,
    fun c hc => ?_⟩
  rw [h] at hc
  obtain ⟨a, _, ha⟩ := List.mem_filterMap.mp hc
  intro hct
  subst hct
  unfold charNorm at ha
  by_cases g1 : a = '\n'
  · rw [if_pos g1] at ha
    injection ha with ha
    exact absurd ha.symm (by decide)
  · rw [if_neg g1] at ha
    by_cases g2 : a = '\t'
    · rw [if_pos g2] at ha
      exact Option.noConfusion ha
    · rw [if_neg g2] at ha
      by_cases g3 : a = qChar
      · rw [if_pos g3] at ha
        injection ha with ha
        exact absurd ha.symm (by decide)
      · rw [if_neg g3] at ha
        by_cases g4 : a = lbChar ∨ a = rbChar
        · rw [if_pos g4] at ha
          exact Option.noConfusion ha
        · rw [if_neg g4] at ha
          injection ha with ha
          exact g2 ha

/-- Claim C7 witness: the normalization of a concrete phrase is its
`charNorm` filter-map, and its surviving character is not a tab. -/
theorem normalize_chars_spec_witness :
    normalizePhrase ['a', '\t', 'b'] = List.filterMap charNorm ['a', '\t', 'b'] ∧
    ('a' : Char) ≠ '\t' :=
  ⟨(normalize_chars_spec ['a', '\t', 'b']).1,
   (normalize_chars_spec ['a', '\t', 'b']).2.2.2.2.2.2.2 'a' (by decide)⟩

/-- Claim C7 counterexample: the phrase `a<TAB>b` is emitted as `ab` — the tab
is removed, not replaced by a space, so the two words do not remain separated. -/
theorem normalize_tab_claim_counterexample :
    formatPhrase ['a', '\t', 'b'] = ['a', 'b'] ∧
    ['a', 'b'] ≠ ['a', ' ', 'b'] := by
  constructor <;> decide

lemma dropWhile_append_ell (t : List Char) :
    ∃ t', List.dropWhile isGoSpace (t ++ ellipsisL) = t' ++ ellipsisL := by
  induction t with
  | nil => exact ⟨[], by rw [List.nil_append]; rfl⟩
  | cons c t ih =>
    by_cases hc : isGoSpace c = true
    · obtain ⟨t', ht⟩ := ih
      exact ⟨t', by rw [List.cons_append, List.dropWhile_cons, if_pos hc, ht]⟩
    · exact ⟨c :: t, by rw [List.cons_append, List.dropWhile_cons, if_neg hc]⟩

lemma goTrimSpace_append_ell (t : List Char) :
    ∃ t', goTrimSpace (t ++ ellipsisL) = t' ++ ellipsisL := by
  obtain ⟨t', ht⟩ := dropWhile_append_ell t
  refine ⟨t', ?_⟩
  unfold goTrimSpace
  rw [ht, List.reverse_append]
  have hder : List.dropWhile isGoSpace (ellipsisL.reverse ++ t'.reverse)
      = ellipsisL.reverse ++ t'.reverse := by
    rfl
  rw [hder, List.reverse_append, List.reverse_reverse, List.reverse_reverse]

lemma goTrimSpace_noop (l : List Char)
    (h1 : ∀ c, l.head? = some c → isGoSpace c = false)
    (h2 : ∀ c, l.getLast? = some c → isGoSpace c = false) :
    goTrimSpace l = l := by
  have hd : l.dropWhile isGoSpace = l := by
    cases l with
    | nil => rfl
    | cons a t => rw [List.dropWhile_cons, if_neg (by rw [h1 a rfl]; simp)]
  unfold goTrimSpace
  rw [hd]
  have hr : l.reverse.dropWhile isGoSpace = l.reverse := by
    cases hrev : l.reverse with
    | nil => rfl
    | cons a t =>
      have hla : l.getLast? = some a := by
        rw [← List.head?_reverse, hrev]
        rfl
      rw [List.dropWhile_cons, if_neg (by rw [h2 a hla]; simp)]
  rw [hr, List.reverse_reverse]

/-- Claim C6 (corrected): when the normalized phrase is longer than 80
characters, the emitted label is the trimmed form of the first 77 normalized
characters followed by the ellipsis; it always ends with the ellipsis, and it
is exactly 80 characters long whenever the normalized phrase does not start
with white space (the final trim, which runs after truncation, can otherwise
make it shorter).  A phrase whose normalized form is at most 80 characters is
emitted as its normalized form trimmed of surrounding white space — not
verbatim. -/
theorem label_truncation_spec (s : List Char) :
    (80 < (normalizePhrase s).length →
      formatPhrase s = goTrimSpace ((normalizePhrase s).take 77 ++ ellipsisL) ∧
      (∃ t, formatPhrase s = t ++ ellipsisL) ∧
      (∀ c, (normalizePhrase s).head? = some c → isGoSpace c = false →
        (formatPhrase s).length = 80)) ∧
    ((normalizePhrase s).length ≤ 80 → formatPhrase s = goTrimSpace (normalizePhrase s)) := by
  constructor
  · intro hlong
    have heq : formatPhrase s = goTrimSpace ((normalizePhrase s).take 77 ++ ellipsisL) := by
      unfold formatPhrase goTruncate
      rw [if_pos hlong]
    refine ⟨heq, ?_, ?_⟩
    · obtain ⟨t', ht⟩ := goTrimSpace_append_ell ((normalizePhrase s).take 77)
      exact ⟨t', by rw [heq, ht]⟩
    · intro c hc hsp
      obtain ⟨a, t, hat⟩ : ∃ a t, normalizePhrase s = a :: t := by
        cases hn : normalizePhrase s with
        | nil => rw [hn] at hc; exact absurd hc (by simp)
        | cons a t => exact ⟨a, t, rfl⟩
      have hca : a = c := by
        rw [hat] at hc
        injection hc
      subst hca
      have hhead : ∀ d, (((normalizePhrase s).take 77) ++ ellipsisL).head? = some d →
          isGoSpace d = false := by
        intro d hd
        rw [hat] at hd
        rw [show (a :: t).take 77 = a :: t.take 76 from rfl, List.cons_append] at hd
        injection hd with hd
        rw [← hd]
        exact hsp
      have hlast : ∀ d, (((normalizePhrase s).take 77) ++ ellipsisL).getLast? = some d →
          isGoSpace d = false := by
        intro d hd
        rw [List.getLast?_append_of_ne_nil _ (by decide)] at hd
        have : d = '.' := by
          have he : ellipsisL.getLast? = some '.' := by decide
          rw [he] at hd
          injection hd with hd
          exact hd.symm
        rw [this]
        decide
      rw [heq, goTrimSpace_noop _ hhead hlast, List.length_append]
      have h77 : ((normalizePhrase s).take 77).length = 77 := by
        rw [List.length_take]
        omega
      rw [h77]
      rfl
  · intro hshort
    unfold formatPhrase goTruncate
    rw [if_neg (by omega)]

/-- Claim C6 witness: an 86-character normalized phrase with a non-space head
yields an 80-character label; a 1-character phrase is emitted as its trimmed
normalized form. -/
theorem label_truncation_spec_witness :
    (formatPhrase phraseLongW).length = 80 ∧
    formatPhrase phraseShortW = goTrimSpace (normalizePhrase phraseShortW) :=
  ⟨((label_truncation_spec phraseLongW).1 (by decide)).2.2 'a' (by decide) (by decide),
   (label_truncation_spec phraseShortW).2 (by decide)⟩

/-- Claim C6 counterexample: a phrase of 85 characters starting with five
spaces is emitted as a 75-character label (truncation to 80 happens before the
trim, which then removes the leading spaces), refuting "exactly 80 characters
long"; and a 2-character phrase with trailing white space is not emitted
verbatim after normalization — it is trimmed. -/
theorem label_truncation_claim_counterexample :
    (80 < (normalizePhrase phraseLeadingSpace).length ∧
      (formatPhrase phraseLeadingSpace).length = 75) ∧
    ((normalizePhrase phraseTrailingSpace).length ≤ 80 ∧
      formatPhrase phraseTrailingSpace ≠ normalizePhrase phraseTrailingSpace) := by
  refine ⟨⟨by decide, by decide⟩, ⟨by decide, by decide⟩⟩

/-! ### Claim C3 — pass-through resolution terminates and is idempotent -/

lemma WF.index_eq {g : CFG} (h : WF g) {i : Nat} {b : Block} (hb : g.get? i = some b) :
    b.index = i := by
  unfold WF wfB at h
  have h1 := ((Bool.and_eq_true _ _).mp h).1
  rw [List.all_eq_true] at h1
  obtain ⟨hlt, _⟩ := List.get?_eq_some.mp hb
  have hx := h1 i (List.mem_range.mpr hlt)
  rw [show (g.get? i) = some b from hb] at hx
  simpa using hx

lemma WF.succ_lt {g : CFG} (h : WF g) {b : Block} (hb : b ∈ g) {j : Nat} (hj : j ∈ b.succs) :
    j < g.length := by
  unfold WF wfB at h
  have h2 := ((Bool.and_eq_true _ _).mp h).2
  rw [List.all_eq_true] at h2
  have hx := h2 b hb
  rw [List.all_eq_true] at hx
  simpa using hx j hj

lemma WF.find_of_lt {g : CFG} (h : WF g) {j : Nat} (hj : j < g.length) :
    ∃ b, findBlock g j = some b ∧ b ∈ g ∧ b.index = j := by
  cases hb : g.get? j with
  | none =>
    rw [List.get?_eq_none] at hb
    omega
  | some b => exact ⟨b, hb, List.get?_mem hb, h.index_eq hb⟩

lemma WF.mem_index_lt {g : CFG} (h : WF g) {b : Block} (hb : b ∈ g) : b.index < g.length := by
  obtain ⟨i, hi⟩ := List.mem_iff_get?.mp hb
  obtain ⟨hlt, _⟩ := List.get?_eq_some.mp hi
  have := h.index_eq hi
  omega

lemma WF.index_inj {g : CFG} (h : WF g) {b b' : Block} (hb : b ∈ g) (hb' : b' ∈ g)
    (he : b.index = b'.index) : b = b' := by
  obtain ⟨i, hi⟩ := List.mem_iff_get?.mp hb
  obtain ⟨i', hi'⟩ := List.mem_iff_get?.mp hb'
  have e1 := h.index_eq hi
  have e2 := h.index_eq hi'
  have hii : i = i' := by omega
  subst hii
  rw [hi] at hi'
  injection hi'

lemma stepN_succ (g : CFG) (k : Nat) (b : Block) :
    stepN g (k + 1) b = (step g b).bind (stepN g k) := rfl

lemma stepN_add (g : CFG) (m n : Nat) (b : Block) :
    stepN g (m + n) b = (stepN g m b).bind (stepN g n) := by
  induction m generalizing b with
  | zero => simp [stepN]
  | succ m ih =>
    rw [show m + 1 + n = (m + n) + 1 from by omega, stepN_succ, stepN_succ]
    cases hs : step g b with
    | none => simp
    | some c => simp [ih]

lemma stepN_split (g : CFG) (m n : Nat) (b c : Block) (h : stepN g (m + n) b = some c) :
    ∃ d, stepN g m b = some d ∧ stepN g n d = some c := by
  rw [stepN_add] at h
  cases hd : stepN g m b with
  | none => rw [hd] at h; simp at h
  | some d =>
    rw [hd] at h
    exact ⟨d, rfl, h⟩

lemma step_mem (g : CFG) (b c : Block) (h : step g b = some c) : c ∈ g := by
  unfold step at h
  by_cases hp : isEmptyPassThrough b = true
  · rw [if_pos hp] at h
    cases hh : b.succs.head? with
    | none => rw [hh] at h; simp at h
    | some j =>
      rw [hh] at h
      simp only [Option.some_bind] at h
      exact List.get?_mem h
  · rw [if_neg hp] at h
    simp at h

lemma step_pt (g : CFG) (b c : Block) (h : step g b = some c) :
    isEmptyPassThrough b = true := by
  unfold step at h
  by_cases hp : isEmptyPassThrough b = true
  · exact hp
  · rw [if_neg hp] at h
    simp at h

lemma stepN_mem (g : CFG) (k : Nat) (b c : Block) (hb : b ∈ g) (h : stepN g k b = some c) :
    c ∈ g := by
  induction k generalizing b with
  | zero =>
    unfold stepN at h
    injection h with h
    subst h
    exact hb
  | succ k ih =>
    rw [stepN_succ] at h
    cases hs : step g b with
    | none => rw [hs] at h; simp at h
    | some d =>
      rw [hs] at h
      simp only [Option.some_bind] at h
      exact ih d (step_mem g b d hs) h

lemma stepN_pt_first (g : CFG) (k : Nat) (b c : Block) (hk : 1 ≤ k)
    (h : stepN g k b = some c) : isEmptyPassThrough b = true := by
  obtain ⟨k', rfl⟩ : ∃ k', k = k' + 1 := ⟨k - 1, by omega⟩
  rw [stepN_succ] at h
  cases hs : step g b with
  | none => rw [hs] at h; simp at h
  | some d => exact step_pt g b d hs

lemma resolveAux_mono (g : CFG) :
    ∀ fuel fuel' b visited c, fuel ≤ fuel' →
      resolveAux g fuel b visited = some c → resolveAux g fuel' b visited = some c := by
  intro fuel
  induction fuel with
  | zero =>
    intro fuel' b visited c _ h
    simp [resolveAux] at h
  | succ f ih =>
    intro fuel' b visited c hle h
    obtain ⟨f', rfl⟩ : ∃ f', fuel' = f' + 1 := ⟨fuel' - 1, by omega⟩
    unfold resolveAux at h ⊢
    by_cases hp : isEmptyPassThrough b = true
    · rw [if_pos hp] at h ⊢
      by_cases hv : b.index ∈ visited
      · rw [if_pos hv] at h ⊢
        exact h
      · rw [if_neg hv] at h ⊢
        cases hd : b.succs.head?.bind (findBlock g) with
        | none => rw [hd] at h; simp at h
        | some nxt =>
          rw [hd] at h
          simp only [Option.some_bind] at h ⊢
          exact ih f' nxt _ c (by omega) h
    · rw [if_neg hp] at h ⊢
      exact h

lemma unvisited_cons_lt (g : CFG) (visited : List Nat) (i : Nat)
    (hi : i < g.length) (hni : i ∉ visited) :
    unvisitedCount g (i :: visited) < unvisitedCount g visited := by
  unfold unvisitedCount
  have hsub : (List.range g.length).filter (fun x => !(decide (x ∈ i :: visited)))
      = ((List.range g.length).filter (fun x => !(decide (x ∈ visited)))).filter
          (fun x => !(x == i)) := by
    rw [List.filter_filter]
    congr 1
    funext x
    by_cases h1 : x ∈ visited <;> by_cases h2 : x = i <;>
      simp [h1, h2, List.mem_cons]
  rw [hsub]
  apply List.length_filter_lt_length_iff_exists.mpr
  refine ⟨i, ?_, by simp⟩
  rw [List.mem_filter]
  exact ⟨List.mem_range.mpr hi, by simp [hni]⟩

lemma resolveAux_isSome (g : CFG) (hwf : WF g) :
    ∀ fuel visited b, b ∈ g → unvisitedCount g visited < fuel →
      ∃ c, resolveAux g fuel b visited = some c := by
  intro fuel
  induction fuel with
  | zero =>
    intro visited b _ hcount
    omega
  | succ f ih =>
    intro visited b hb hcount
    by_cases hp : isEmptyPassThrough b = true
    · by_cases hv : b.index ∈ visited
      · exact ⟨b, by unfold resolveAux; rw [if_pos hp, if_pos hv]⟩
      · have hlen : b.succs.length = 1 := by
          unfold isEmptyPassThrough at hp
          simpa using ((Bool.and_eq_true _ _).mp hp).2
        obtain ⟨j, hj⟩ : ∃ j, b.succs.head? = some j := by
          cases hs : b.succs with
          | nil => rw [hs] at hlen; simp at hlen
          | cons a t => exact ⟨a, rfl⟩
        have hjmem : j ∈ b.succs := List.mem_of_mem_head? hj
        obtain ⟨nxt, hfind, hnmem, _⟩ := hwf.find_of_lt (hwf.succ_lt hb hjmem)
        have hlt2 : unvisitedCount g (b.index :: visited) < f := by
          have h1 := unvisited_cons_lt g visited b.index (hwf.mem_index_lt hb) hv
          omega
        obtain ⟨c, hc⟩ := ih (b.index :: visited) nxt hnmem hlt2
        refine ⟨c, ?_⟩
        unfold resolveAux
        rw [if_pos hp, if_neg hv, hj]
        simp only [Option.some_bind]
        rw [hfind]
        simpa using hc
    · exact ⟨b, by unfold resolveAux; rw [if_neg hp]⟩

lemma resolve_terminates (g : CFG) (hwf : WF g) (b : Block) (hb : b ∈ g) :
    ∃ c, resolveDestination g b = some c := by
  apply resolveAux_isSome g hwf (g.length + 1) [] b hb
  unfold unvisitedCount
  have hle := List.length_filter_le (fun i => !(decide (i ∈ ([] : List Nat))))
    (List.range g.length)
  simp only [List.length_range] at hle
  omega

lemma resolveAux_spec (g : CFG) (hwf : WF g) :
    ∀ fuel visited b c, b ∈ g →
      (∀ i ∈ visited, ∃ v, v ∈ g ∧ v.index = i ∧ ∃ k, 1 ≤ k ∧ stepN g k v = some b) →
      resolveAux g fuel b visited = some c →
      (isEmptyPassThrough c = false) ∨ (c ∈ g ∧ ∃ k, 1 ≤ k ∧ stepN g k c = some c) := by
  intro fuel
  induction fuel with
  | zero =>
    intro visited b c _ _ h
    simp [resolveAux] at h
  | succ f ih =>
    intro visited b c hb hinv h
    unfold resolveAux at h
    by_cases hp : isEmptyPassThrough b = true
    · rw [if_pos hp] at h
      by_cases hv : b.index ∈ visited
      · rw [if_pos hv] at h
        injection h with h
        subst h
        obtain ⟨v, hvg, hvi, k, hk1, hkstep⟩ := hinv b.index hv
        have hvb : v = b := hwf.index_inj hvg hb hvi
        subst hvb
        exact Or.inr ⟨hb, k, hk1, hkstep⟩
      · rw [if_neg hv] at h
        cases hd : b.succs.head?.bind (findBlock g) with
        | none => rw [hd] at h; simp at h
        | some nxt =>
          rw [hd] at h
          simp only [Option.some_bind] at h
          have hstep : step g b = some nxt := by
            unfold step
            rw [if_pos hp]
            exact hd
          apply ih (b.index :: visited) nxt c (step_mem g b nxt hstep) ?_ h
          intro i hi
          rcases List.mem_cons.mp hi with rfl | hiv
          · exact ⟨b, hb, rfl, 1, le_refl 1, by rw [stepN_succ, hstep]; rfl⟩
          · obtain ⟨v, hvg, hvi, k, hk1, hkstep⟩ := hinv i hiv
            refine ⟨v, hvg, hvi, k + 1, by omega, ?_⟩
            rw [stepN_add g k 1, hkstep]
            simp only [Option.some_bind]
            rw [stepN_succ, hstep]
            rfl
    · rw [if_neg hp] at h
      injection h with h
      subst h
      exact Or.inl (Bool.eq_false_iff.mpr hp)

lemma cycle_distinct (g : CFG) (c : Block) (k : Nat)
    (hcyc : stepN g k c = some c)
    (hmin : ∀ t, 1 ≤ t → t < k → stepN g t c ≠ some c) :
    ∀ a b x y, a < b → b < k → stepN g a c = some x → stepN g b c = some y → x ≠ y := by
  intro a b x y hab hbk hx hy hxy
  rw [hxy] at hx
  have hsplit := hcyc
  rw [show k = b + (k - b) from by omega] at hsplit
  obtain ⟨d, hd1, hd2⟩ := stepN_split g b (k - b) c c hsplit
  rw [hy] at hd1
  injection hd1 with hd1
  rw [← hd1] at hd2
  have hfin : stepN g (a + (k - b)) c = some c := by
    rw [stepN_add, hx]
    simpa using hd2
  exact hmin (a + (k - b)) (by omega) (by omega) hfin

lemma cycle_aux (g : CFG) (hwf : WF g) (c : Block) (hc : c ∈ g) (k : Nat) (hk : 1 ≤ k)
    (hcyc : stepN g k c = some c)
    (hmin : ∀ t, 1 ≤ t → t < k → stepN g t c ≠ some c) :
    ∀ m j b (V : List Nat) fuel, j + m = k → stepN g j c = some b →
      (∀ i, i ∈ V ↔ ∃ t x, t < j ∧ stepN g t c = some x ∧ x.index = i) →
      m < fuel →
      resolveAux g fuel b V = some c := by
  intro m
  induction m with
  | zero =>
    intro j b V fuel hjm hb hV hfuel
    have hjk : j = k := by omega
    subst hjk
    rw [hcyc] at hb
    injection hb with hb
    subst hb
    obtain ⟨f, rfl⟩ : ∃ f, fuel = f + 1 := ⟨fuel - 1, by omega⟩
    have hpt : isEmptyPassThrough c = true := stepN_pt_first g j c c hk hcyc
    have hvmem : c.index ∈ V := (hV c.index).mpr ⟨0, c, by omega, rfl, rfl⟩
    unfold resolveAux
    rw [if_pos hpt, if_pos hvmem]
  | succ m ih =>
    intro j b V fuel hjm hb hV hfuel
    have hjk : j < k := by omega
    have hsplit := hcyc
    rw [show k = j + (m + 1) from by omega] at hsplit
    obtain ⟨d, hd1, hd2⟩ := stepN_split g j (m + 1) c c hsplit
    rw [hb] at hd1
    injection hd1 with hd1
    rw [← hd1] at hd2
    have hpt : isEmptyPassThrough b = true := stepN_pt_first g (m + 1) b c (by omega) hd2
    obtain ⟨b', hs, hstepm⟩ : ∃ b', step g b = some b' ∧ stepN g m b' = some c := by
      rw [stepN_succ] at hd2
      cases hss : step g b with
      | none => rw [hss] at hd2; simp at hd2
      | some b' =>
        rw [hss] at hd2
        simp only [Option.some_bind] at hd2
        exact ⟨b', rfl, hd2⟩
    have hbg : b ∈ g := stepN_mem g j c b hc hb
    have hnv : b.index ∉ V := by
      intro hmem
      obtain ⟨t, x, htj, hxs, hxi⟩ := (hV b.index).mp hmem
      have hxg : x ∈ g := stepN_mem g t c x hc hxs
      exact cycle_distinct g c k hcyc hmin t j x b (by omega) hjk hxs hb
        (hwf.index_inj hxg hbg hxi)
    obtain ⟨f, rfl⟩ : ∃ f, fuel = f + 1 := ⟨fuel - 1, by omega⟩
    unfold resolveAux
    rw [if_pos hpt, if_neg hnv]
    have hd : b.succs.head?.bind (findBlock g) = some b' := by
      unfold step at hs
      rw [if_pos hpt] at hs
      exact hs
    rw [hd]
    simp only [Option.some_bind]
    apply ih (j + 1) b' (b.index :: V) f (by omega) ?_ ?_ (by omega)
    · rw [stepN_add g j 1, hb]
      simp only [Option.some_bind]
      rw [stepN_succ, hs]
      rfl
    · intro i
      constructor
      · intro hi
        rcases List.mem_cons.mp hi with rfl | hiv
        · exact ⟨j, b, by omega, hb, rfl⟩
        · obtain ⟨t, x, htj, hxs, hxi⟩ := (hV i).mp hiv
          exact ⟨t, x, by omega, hxs, hxi⟩
      · intro hex
        obtain ⟨t, x, htj, hxs, hxi⟩ := hex
        by_cases ht : t = j
        · subst ht
          rw [hb] at hxs
          injection hxs with hxs
          rw [← hxi, ← hxs]
          exact List.mem_cons_self _ _
        · exact List.mem_cons_of_mem _ ((hV i).mpr ⟨t, x, by omega, hxs, hxi⟩)

lemma resolve_cycle (g : CFG) (hwf : WF g) (c : Block) (hc : c ∈ g) :
    ∀ k, 1 ≤ k → stepN g k c = some c → resolveDestination g c = some c := by
  intro k
  induction k using Nat.strong_induction_on with
  | _ k ih =>
    intro hk hcyc
    by_cases hmin : ∀ t, 1 ≤ t → t < k → stepN g t c ≠ some c
    · have hres : resolveAux g (k + 1) c [] = some c := by
        apply cycle_aux g hwf c hc k hk hcyc hmin k 0 c [] (k + 1) (by omega)
          (by rfl) ?_ (by omega)
        intro i
        simp
      obtain ⟨d, hd⟩ := resolve_terminates g hwf c hc
      have h1 : resolveAux g (k + 1 + (g.length + 1)) c [] = some c :=
        resolveAux_mono g (k + 1) _ c [] c (by omega) hres
      have h2 : resolveAux g (k + 1 + (g.length + 1)) c [] = some d :=
        resolveAux_mono g (g.length + 1) _ c [] d (by omega) hd
      rw [h1] at h2
      injection h2 with h2
      rw [hd, h2]
    · push_neg at hmin
      obtain ⟨t, ht1, htk, hts⟩ := hmin
      exact ih t htk ht1 hts

lemma resolve_idem (g : CFG) (hwf : WF g) (b c : Block) (hb : b ∈ g)
    (h : resolveDestination g b = some c) : resolveDestination g c = some c := by
  have hspec := resolveAux_spec g hwf (g.length + 1) [] b c hb
    (by intro i hi; simp at hi) h
  rcases hspec with hnpt | ⟨hcg, k, hk1, hcyc⟩
  · unfold resolveDestination resolveAux
    rw [if_neg (by rw [hnpt]; simp)]
  · exact resolve_cycle g hwf c hcg k hk1 hcyc

/-- Claim C3 (confirmed): on a well-formed finite block graph,
`resolveDestination` terminates for every block (the visited set bounds the
loop by the block count, even when pass-through blocks form a cycle), and it
is idempotent: resolving the resolved block again returns it unchanged. -/
theorem resolve_terminates_idem (g : CFG) (b : Block) (hwf : WF g) (hb : b ∈ g) :
    (∃ c, resolveDestination g b = some c) ∧
    (∀ c, resolveDestination g b = some c → resolveDestination g c = some c) :=
  ⟨resolve_terminates g hwf b hb, fun c hc => resolve_idem g hwf b c hb hc⟩

/-- Claim C3 witness: in the concrete graph whose blocks 1 and 2 form a
pass-through cycle entered from block 0, resolution from block 0 terminates
and is idempotent. -/
theorem resolve_terminates_idem_witness :
    (∃ c, resolveDestination gcyc gcycBlock0 = some c) ∧
    (∀ c, resolveDestination gcyc gcycBlock0 = some c →
      resolveDestination gcyc c = some c) :=
  resolve_terminates_idem gcyc gcycBlock0 (show wfB gcyc = true by decide) (by decide)

/-! ### Claims C5, C8, C9, C10 — the rendering loop -/

lemma resolveAux_out_mem (g : CFG) :
    ∀ fuel b visited c, b ∈ g → resolveAux g fuel b visited = some c → c ∈ g := by
  intro fuel
  induction fuel with
  | zero =>
    intro b visited c _ h
    simp [resolveAux] at h
  | succ f ih =>
    intro b visited c hb h
    unfold resolveAux at h
    by_cases hp : isEmptyPassThrough b = true
    · rw [if_pos hp] at h
      by_cases hv : b.index ∈ visited
      · rw [if_pos hv] at h
        injection h with h
        subst h
        exact hb
      · rw [if_neg hv] at h
        cases hd : b.succs.head?.bind (findBlock g) with
        | none => rw [hd] at h; simp at h
        | some nxt =>
          rw [hd] at h
          simp only [Option.some_bind] at h
          have hmem : nxt ∈ g := by
            cases hh : b.succs.head? with
            | none => rw [hh] at hd; simp at hd
            | some j =>
              rw [hh] at hd
              simp only [Option.some_bind] at hd
              exact List.get?_mem hd
          exact ih nxt _ c hmem h
    · rw [if_neg hp] at h
      injection h with h
      subst h
      exact hb

lemma resolveDestination_spec (g : CFG) (hwf : WF g) (b c : Block) (hb : b ∈ g)
    (h : resolveDestination g b = some c) :
    c ∈ g ∧ (isEmptyPassThrough c = false ∨ ∃ k, 1 ≤ k ∧ stepN g k c = some c) := by
  refine ⟨resolveAux_out_mem g (g.length + 1) b [] c hb h, ?_⟩
  rcases resolveAux_spec g hwf (g.length + 1) [] b c hb (by intro i hi; simp at hi) h with
    h1 | ⟨_, hk⟩
  · exact Or.inl h1
  · exact Or.inr hk

lemma resolveSucc_spec (g : CFG) (hwf : WF g) (j : Nat) (c : Block)
    (h : resolveSucc g j = some c) :
    c ∈ g ∧ (isEmptyPassThrough c = false ∨ ∃ k, 1 ≤ k ∧ stepN g k c = some c) := by
  unfold resolveSucc at h
  cases hf : findBlock g j with
  | none => rw [hf] at h; simp at h
  | some b =>
    rw [hf] at h
    simp only [Option.some_bind] at h
    exact resolveDestination_spec g hwf b c (List.get?_mem hf) h

lemma resolveSucc_mem (g : CFG) (j : Nat) (c : Block) (h : resolveSucc g j = some c) :
    c ∈ g := by
  unfold resolveSucc at h
  cases hf : findBlock g j with
  | none => rw [hf] at h; simp at h
  | some b =>
    rw [hf] at h
    simp only [Option.some_bind] at h
    exact resolveAux_out_mem g (g.length + 1) b [] c (List.get?_mem hf) h

lemma renderEdges_mem (g : CFG) (b : Block) (es : List Dir) (h : renderEdges g b = some es)
    (e : Dir) (he : e ∈ es) :
    ∃ ar j d, j ∈ b.succs ∧ resolveSucc g j = some d ∧
      e = Dir.edge (blockId b.index) ar (getEntryPoint d) ∧
      (isLoopArrow ar = true ↔ d.index ≤ b.index) := by
  unfold renderEdges at h
  by_cases h1 : (b.succs.length == 1) = true
  · rw [if_pos h1] at h
    obtain ⟨dest, hdest, rfl⟩ := Option.map_eq_some'.mp h
    rw [List.mem_singleton] at he
    subst he
    obtain ⟨j, hj0, hjr⟩ : ∃ j, b.succs.get? 0 = some j ∧ resolveSucc g j = some dest := by
      cases hg : b.succs.get? 0 with
      | none => rw [hg] at hdest; simp at hdest
      | some j =>
        rw [hg] at hdest
        simp only [Option.some_bind] at hdest
        exact ⟨j, rfl, hdest⟩
    refine ⟨_, j, dest, List.get?_mem hj0, hjr, rfl, ?_⟩
    by_cases hcmp : dest.index ≤ b.index
    · rw [if_pos hcmp]
      exact ⟨fun _ => hcmp, fun _ => by decide⟩
    · rw [if_neg hcmp]
      exact ⟨fun habs => absurd habs (by decide), fun hc => absurd hc hcmp⟩
  · rw [if_neg h1] at h
    by_cases h2 : (b.succs.length == 2) = true
    · rw [if_pos h2] at h
      cases hT : (b.succs.get? 0).bind (resolveSucc g) with
      | none => rw [hT] at h; simp at h
      | some destTrue =>
        rw [hT] at h
        simp only [Option.some_bind] at h
        obtain ⟨destFalse, hF, rfl⟩ := Option.map_eq_some'.mp h
        obtain ⟨jT, hjT0, hjTr⟩ : ∃ j, b.succs.get? 0 = some j ∧ resolveSucc g j = some destTrue := by
          cases hg : b.succs.get? 0 with
          | none => rw [hg] at hT; simp at hT
          | some j =>
            rw [hg] at hT
            simp only [Option.some_bind] at hT
            exact ⟨j, rfl, hT⟩
        obtain ⟨jF, hjF0, hjFr⟩ : ∃ j, b.succs.get? 1 = some j ∧ resolveSucc g j = some destFalse := by
          cases hg : b.succs.get? 1 with
          | none => rw [hg] at hF; simp at hF
          | some j =>
            rw [hg] at hF
            simp only [Option.some_bind] at hF
            exact ⟨j, rfl, hF⟩
        rcases List.mem_cons.mp he with rfl | he2
        · refine ⟨_, jT, destTrue, List.get?_mem hjT0, hjTr, rfl, ?_⟩
          by_cases hcmp : destTrue.index ≤ b.index
          · rw [if_pos hcmp]
            exact ⟨fun _ => hcmp, fun _ => by decide⟩
          · rw [if_neg hcmp]
            exact ⟨fun habs => absurd habs (by decide), fun hc => absurd hc hcmp⟩
        · rw [List.mem_singleton] at he2
          subst he2
          refine ⟨_, jF, destFalse, List.get?_mem hjF0, hjFr, rfl, ?_⟩
          by_cases hcmp : destFalse.index ≤ b.index
          · rw [if_pos hcmp]
            exact ⟨fun _ => hcmp, fun _ => by decide⟩
          · rw [if_neg hcmp]
            exact ⟨fun habs => absurd habs (by decide), fun hc => absurd hc hcmp⟩
    · rw [if_neg h2] at h
      injection h with h
      subst h
      simp at he

lemma renderNodes_shape (b : Block) (d : Dir) (hd : d ∈ renderNodes b) :
    nodeIndex? d = some b.index ∨ d = Dir.setupEdge b.index := by
  unfold renderNodes at hd
  by_cases hs : (b.nodes.length > 1 && b.succs.length == 2) = true
  · rw [if_pos hs] at hd
    rcases List.mem_cons.mp hd with rfl | hd2
    · exact Or.inl rfl
    rcases List.mem_cons.mp hd2 with rfl | hd3
    · exact Or.inl rfl
    rcases List.mem_cons.mp hd3 with rfl | hd4
    · exact Or.inr rfl
    · simp at hd4
  · rw [if_neg hs] at hd
    rw [List.mem_singleton] at hd
    subst hd
    exact Or.inl rfl

lemma renderNodes_no_edge (b : Block) (ex ar en : String) :
    Dir.edge ex ar en ∉ renderNodes b := by
  intro hmem
  rcases renderNodes_shape b _ hmem with h | h
  · simp [nodeIndex?] at h
  · exact Dir.noConfusion h

lemma renderNodes_no_rootEdge (b : Block) (en : String) :
    Dir.rootEdge en ∉ renderNodes b := by
  intro hmem
  rcases renderNodes_shape b _ hmem with h | h
  · simp [nodeIndex?] at h
  · exact Dir.noConfusion h

lemma renderBlock_mem (g : CFG) (b : Block) (ds : List Dir) (h : renderBlock g b = some ds)
    (d : Dir) (hd : d ∈ ds) :
    isEmptyPassThrough b = false ∧
      (d ∈ renderNodes b ∨ ∃ es, renderEdges g b = some es ∧ d ∈ es) := by
  unfold renderBlock at h
  by_cases hp : isEmptyPassThrough b = true
  · rw [if_pos hp] at h
    injection h with h
    subst h
    simp at hd
  · rw [if_neg hp] at h
    obtain ⟨es, hes, rfl⟩ := Option.map_eq_some'.mp h
    refine ⟨Bool.eq_false_iff.mpr hp, ?_⟩
    rcases List.mem_append.mp hd with h1 | h2
    · exact Or.inl h1
    · exact Or.inr ⟨es, hes, h2⟩

lemma renderBlock_nodes_sub (g : CFG) (b : Block) (bds : List Dir)
    (h : renderBlock g b = some bds) (hp : isEmptyPassThrough b = false) :
    ∀ d ∈ renderNodes b, d ∈ bds := by
  unfold renderBlock at h
  rw [if_neg (by rw [hp]; simp)] at h
  obtain ⟨es, _, rfl⟩ := Option.map_eq_some'.mp h
  intro d hd
  exact List.mem_append.mpr (Or.inl hd)

lemma renderBlocks_mem (g : CFG) :
    ∀ l ds, renderBlocks g l = some ds → ∀ d ∈ ds,
      ∃ b, b ∈ l ∧ ∃ bds, renderBlock g b = some bds ∧ d ∈ bds := by
  intro l
  induction l with
  | nil =>
    intro ds h d hd
    injection h with h
    subst h
    simp at hd
  | cons b rest ih =>
    intro ds h d hd
    unfold renderBlocks at h
    cases hb : renderBlock g b with
    | none => rw [hb] at h; simp at h
    | some bds =>
      rw [hb] at h
      simp only [Option.some_bind] at h
      obtain ⟨rds, hrds, rfl⟩ := Option.map_eq_some'.mp h
      rcases List.mem_append.mp hd with h1 | h2
      · exact ⟨b, List.mem_cons_self _ _, bds, hb, h1⟩
      · obtain ⟨b', hb', bds', hbds', hd'⟩ := ih rds hrds d h2
        exact ⟨b', List.mem_cons_of_mem _ hb', bds', hbds', hd'⟩

lemma renderBlocks_success (g : CFG) :
    ∀ l ds, renderBlocks g l = some ds → ∀ b ∈ l,
      ∃ bds, renderBlock g b = some bds ∧ ∀ d ∈ bds, d ∈ ds := by
  intro l
  induction l with
  | nil =>
    intro ds h b hb
    simp at hb
  | cons b0 rest ih =>
    intro ds h b hb
    unfold renderBlocks at h
    cases hb0 : renderBlock g b0 with
    | none => rw [hb0] at h; simp at h
    | some bds0 =>
      rw [hb0] at h
      simp only [Option.some_bind] at h
      obtain ⟨rds, hrds, rfl⟩ := Option.map_eq_some'.mp h
      rcases List.mem_cons.mp hb with rfl | hbr
      · exact ⟨bds0, hb0, fun d hd => List.mem_append.mpr (Or.inl hd)⟩
      · obtain ⟨bds, hbds, hsub⟩ := ih rds hrds b hbr
        exact ⟨bds, hbds, fun d hd => List.mem_append.mpr (Or.inr (hsub d hd))⟩

lemma renderAll_eq (g : CFG) (s : String) (ds : List Dir) (h : renderAll g s = some ds) :
    ∃ b0 first body, findBlock g 0 = some b0 ∧ resolveDestination g b0 = some first ∧
      renderBlocks g g = some body ∧
      ds = [Dir.classLine classDefRootLine, Dir.classLine classDefEndLine,
            Dir.rootNode s, Dir.rootEdge (getEntryPoint first)] ++ body := by
  unfold renderAll at h
  cases hf : (findBlock g 0).bind (fun b => resolveDestination g b) with
  | none => rw [hf] at h; simp at h
  | some first =>
    rw [hf] at h
    simp only [Option.some_bind] at h
    obtain ⟨body, hbody, rfl⟩ := Option.map_eq_some'.mp h
    obtain ⟨b0, hb0, hres⟩ : ∃ b0, findBlock g 0 = some b0 ∧
        resolveDestination g b0 = some first := by
      cases hg : findBlock g 0 with
      | none => rw [hg] at hf; simp at hf
      | some b0 =>
        rw [hg] at hf
        simp only [Option.some_bind] at hf
        exact ⟨b0, rfl, hf⟩
    exact ⟨b0, first, body, hb0, hres, hbody, rfl⟩

/-- Claim C5 (confirmed): every classified edge the renderer emits goes from a
rendered block to the resolved destination of one of its successors, and it is
styled as a loop edge exactly when the resolved target's index is at most the
source block's index — one uniform rule for single-successor edges and for
both the True and the False branch. -/
theorem edge_classification_spec (g : CFG) (s : String) (ds : List Dir)
    (h : renderAll g s = some ds) :
    ∀ ex ar en, Dir.edge ex ar en ∈ ds →
      ∃ b d, b ∈ g ∧ isEmptyPassThrough b = false ∧
        (∃ j ∈ b.succs, resolveSucc g j = some d) ∧
        ex = blockId b.index ∧ en = getEntryPoint d ∧
        (isLoopArrow ar = true ↔ d.index ≤ b.index) := by
  intro ex ar en hmem
  obtain ⟨b0, first, body, hb0, hres, hbody, rfl⟩ := renderAll_eq g s ds h
  rcases List.mem_append.mp hmem with hh | hb
  · simp at hh
  · obtain ⟨b, hbg, bds, hbds, hd⟩ := renderBlocks_mem g g body hbody _ hb
    obtain ⟨hpt, hsplit⟩ := renderBlock_mem g b bds hbds _ hd
    rcases hsplit with hn | ⟨es, hes, hein⟩
    · exact absurd hn (renderNodes_no_edge b ex ar en)
    · obtain ⟨ar', j, d, hj, hjr, heq, hiff⟩ := renderEdges_mem g b es hes _ hein
      injection heq with h1 h2 h3
      subst h1
      subst h2
      subst h3
      exact ⟨b, d, hbg, hpt, ⟨j, hj, hjr⟩, rfl, rfl, hiff⟩

/-- Claim C5 witness: the back edge of the concrete loop graph `gw` is
classified by the index comparison rule. -/
theorem edge_classification_spec_witness :
    ∃ b d, b ∈ gw ∧ isEmptyPassThrough b = false ∧
      (∃ j ∈ b.succs, resolveSucc gw j = some d) ∧
      blockId 2 = blockId b.index ∧ blockId 1 = getEntryPoint d ∧
      (isLoopArrow "-.->|Loop|" = true ↔ d.index ≤ b.index) :=
  edge_classification_spec gw "f" dsGw (by decide) (blockId 2) "-.->|Loop|" (blockId 1)
    (by decide)

/-- Claim C8 (corrected): the renderer never declares a node for a
pass-through block, and every emitted edge target (the root edge included) is
the resolved destination of a successor chain — a block that is either not a
pass-through, or a pass-through lying on a cycle of pass-through blocks (the
cycle-breaking block `resolveDestination` returns, which the claim overlooked). -/
theorem no_passthrough_rendering (g : CFG) (s : String) (ds : List Dir)
    (hwf : WF g) (h : renderAll g s = some ds) :
    (∀ d ∈ ds, ∀ i, nodeIndex? d = some i →
      ∃ b, b ∈ g ∧ b.index = i ∧ isEmptyPassThrough b = false) ∧
    (∀ ex ar en, Dir.edge ex ar en ∈ ds → ∃ c, c ∈ g ∧ en = getEntryPoint c ∧
      (isEmptyPassThrough c = false ∨ (∃ k, 1 ≤ k ∧ stepN g k c = some c))) ∧
    (∀ en, Dir.rootEdge en ∈ ds → ∃ c, c ∈ g ∧ en = getEntryPoint c ∧
      (isEmptyPassThrough c = false ∨ (∃ k, 1 ≤ k ∧ stepN g k c = some c))) := by
  obtain ⟨b0, first, body, hb0, hres, hbody, rfl⟩ := renderAll_eq g s ds h
  refine ⟨?_, ?_, ?_⟩
  · intro d hd i hi
    rcases List.mem_append.mp hd with hh | hb
    · simp only [List.mem_cons, List.not_mem_nil, or_false] at hh
      rcases hh with rfl | rfl | rfl | rfl <;> simp [nodeIndex?] at hi
    · obtain ⟨b, hbg, bds, hbds, hdmem⟩ := renderBlocks_mem g g body hbody _ hb
      obtain ⟨hpt, hsplit⟩ := renderBlock_mem g b bds hbds _ hdmem
      rcases hsplit with hn | ⟨es, hes, hein⟩
      · rcases renderNodes_shape b d hn with h1 | h1
        · rw [h1] at hi
          injection hi with hi
          exact ⟨b, hbg, hi, hpt⟩
        · rw [h1] at hi
          simp [nodeIndex?] at hi
      · obtain ⟨ar, j, dd, _, _, heq, _⟩ := renderEdges_mem g b es hes _ hein
        rw [heq] at hi
        simp [nodeIndex?] at hi
  · intro ex ar en hmem
    rcases List.mem_append.mp hmem with hh | hb
    · simp at hh
    · obtain ⟨b, hbg, bds, hbds, hdmem⟩ := renderBlocks_mem g g body hbody _ hb
      obtain ⟨hpt, hsplit⟩ := renderBlock_mem g b bds hbds _ hdmem
      rcases hsplit with hn | ⟨es, hes, hein⟩
      · exact absurd hn (renderNodes_no_edge b ex ar en)
      · obtain ⟨ar', j, d, hj, hjr, heq, _⟩ := renderEdges_mem g b es hes _ hein
        injection heq with h1 h2 h3
        subst h3
        obtain ⟨hdg, hdisj⟩ := resolveSucc_spec g hwf j d hjr
        exact ⟨d, hdg, rfl, hdisj⟩
  · intro en hmem
    rcases List.mem_append.mp hmem with hh | hb
    · have hen : en = getEntryPoint first := by
        simp only [List.mem_cons, List.not_mem_nil, or_false] at hh
        rcases hh with h1 | h1 | h1 | h1
        · exact Dir.noConfusion h1
        · exact Dir.noConfusion h1
        · exact Dir.noConfusion h1
        · injection h1
      subst hen
      obtain ⟨hfg, hdisj⟩ := resolveDestination_spec g hwf b0 first (List.get?_mem hb0) hres
      exact ⟨first, hfg, rfl, hdisj⟩
    · obtain ⟨b, hbg, bds, hbds, hdmem⟩ := renderBlocks_mem g g body hbody _ hb
      obtain ⟨hpt, hsplit⟩ := renderBlock_mem g b bds hbds _ hdmem
      rcases hsplit with hn | ⟨es, hes, hein⟩
      · exact absurd hn (renderNodes_no_rootEdge b en)
      · obtain ⟨ar', j, d, _, _, heq, _⟩ := renderEdges_mem g b es hes _ hein
        exact Dir.noConfusion heq

/-- Claim C8 witness: in the concrete loop graph `gw`, the root edge's target
is a resolved block that is not a pass-through (or lies on a pass-through
cycle). -/
theorem no_passthrough_rendering_witness :
    ∃ c, c ∈ gw ∧ blockId 0 = getEntryPoint c ∧
      (isEmptyPassThrough c = false ∨ (∃ k, 1 ≤ k ∧ stepN gw k c = some c)) :=
  (no_passthrough_rendering gw "f" dsGw (show wfB gw = true by decide) (by decide)).2.2
    (blockId 0) (by decide)

/-- Claim C8 counterexample: in the graph `gPT`, block 1 is an empty
pass-through whose single successor is itself; the emitted edge from block 0
targets `B1` — a pass-through block (and one the renderer never declares),
refuting "no emitted edge has a pass-through block as its target ... also when
pass-through blocks form a cycle". -/
theorem no_passthrough_claim_counterexample :
    renderAll gPT "f" = some dsPT ∧
    Dir.edge (blockId 0) "-->" (blockId 1) ∈ dsPT ∧
    gPTBlock1 ∈ gPT ∧ isEmptyPassThrough gPTBlock1 = true ∧
    getEntryPoint gPTBlock1 = blockId 1 ∧
    ¬ (blockId 1 ∈ declaredIds dsPT) := by
  refine ⟨by decide, by decide, by decide, by decide, by decide, by decide⟩

lemma blockId_ne_setupId (i : Nat) : blockId i ≠ setupId i := by
  intro h
  have hlen := congrArg String.length h
  simp only [blockId, setupId, String.length_append] at hlen
  have h6 : ("_setup" : String).length = 6 := by decide
  omega

lemma getEntryPoint_split (b : Block) (hs : (b.nodes.length > 1 && b.succs.length == 2) = true) :
    getEntryPoint b = setupId b.index := by
  unfold getEntryPoint
  rw [if_pos hs]

lemma getEntryPoint_nonsplit (b : Block)
    (hs : ¬ (b.nodes.length > 1 && b.succs.length == 2) = true) :
    getEntryPoint b = blockId b.index := by
  unfold getEntryPoint
  rw [if_neg hs]

lemma entry_declared (g : CFG) (ds : List Dir) (d : Block) (hd : d ∈ g)
    (hpt : isEmptyPassThrough d = false)
    (hall : ∀ dd ∈ renderNodes d, dd ∈ ds) :
    getEntryPoint d ∈ declaredIds ds := by
  by_cases hs : (d.nodes.length > 1 && d.succs.length == 2) = true
  · rw [getEntryPoint_split d hs]
    have hmem : Dir.setupNode d.index (formatNodes (d.nodes.take (d.nodes.length - 1)))
        ∈ renderNodes d := by
      unfold renderNodes
      rw [if_pos hs]
      exact List.mem_cons_self _ _
    exact List.mem_filterMap.mpr ⟨_, hall _ hmem, rfl⟩
  · rw [getEntryPoint_nonsplit d hs]
    have hmem : Dir.plainNode d.index (d.succs.length == 2)
        (if (d.nodes.length == 0) = true then getStructuralLabel d else formatNodes d.nodes)
        (d.succs.length == 0) ∈ renderNodes d := by
      unfold renderNodes
      rw [if_neg hs]
      exact List.mem_singleton.mpr rfl
    exact List.mem_filterMap.mpr ⟨_, hall _ hmem, rfl⟩

/-- Claim C9 (confirmed): `getEntryPoint` returns the `_setup` identifier
exactly when the split condition holds (more than one statement and exactly
two successors) and the plain identifier otherwise; consequently every emitted
edge — the root edge included — whose resolved target is a rendered
non-pass-through block names a node identifier the renderer also declares. -/
theorem entry_point_spec (g : CFG) (s : String) (ds : List Dir)
    (h : renderAll g s = some ds) :
    (∀ b : Block,
      (getEntryPoint b = setupId b.index ↔ (1 < b.nodes.length ∧ b.succs.length = 2)) ∧
      (¬ (1 < b.nodes.length ∧ b.succs.length = 2) → getEntryPoint b = blockId b.index)) ∧
    (∀ ex ar en, Dir.edge ex ar en ∈ ds →
      ∃ d, d ∈ g ∧ en = getEntryPoint d ∧
        (isEmptyPassThrough d = false → en ∈ declaredIds ds)) ∧
    (∀ en, Dir.rootEdge en ∈ ds →
      ∃ d, d ∈ g ∧ en = getEntryPoint d ∧
        (isEmptyPassThrough d = false → en ∈ declaredIds ds)) := by
  obtain ⟨b0, first, body, hb0, hres, hbody, rfl⟩ := renderAll_eq g s ds h
  have hdecl : ∀ d, d ∈ g → isEmptyPassThrough d = false →
      getEntryPoint d ∈ declaredIds
        ([Dir.classLine classDefRootLine, Dir.classLine classDefEndLine,
          Dir.rootNode s, Dir.rootEdge (getEntryPoint first)] ++ body) := by
    intro d hd hpt
    obtain ⟨bds, hbds, hsub⟩ := renderBlocks_success g g body hbody d hd
    apply entry_declared g _ d hd hpt
    intro dd hdd
    exact List.mem_append.mpr (Or.inr (hsub dd (renderBlock_nodes_sub g d bds hbds hpt dd hdd)))
  refine ⟨?_, ?_, ?_⟩
  · intro b
    by_cases hs : (b.nodes.length > 1 && b.succs.length == 2) = true
    · have hpair : 1 < b.nodes.length ∧ b.succs.length = 2 := by
        have hh := (Bool.and_eq_true _ _).mp hs
        exact ⟨by simpa using hh.1, by simpa using hh.2⟩
      exact ⟨⟨fun _ => hpair, fun _ => getEntryPoint_split b hs⟩,
        fun hc => absurd hpair hc⟩
    · have hnpair : ¬ (1 < b.nodes.length ∧ b.succs.length = 2) := by
        intro hc
        exact hs (by simp [hc.1, hc.2])
      refine ⟨⟨fun he => ?_, fun hc => absurd hc hnpair⟩,
        fun _ => getEntryPoint_nonsplit b hs⟩
      rw [getEntryPoint_nonsplit b hs] at he
      exact absurd he (blockId_ne_setupId b.index)
  · intro ex ar en hmem
    rcases List.mem_append.mp hmem with hh | hb
    · simp at hh
    · obtain ⟨b, hbg, bds, hbds, hdmem⟩ := renderBlocks_mem g g body hbody _ hb
      obtain ⟨hpt, hsplit⟩ := renderBlock_mem g b bds hbds _ hdmem
      rcases hsplit with hn | ⟨es, hes, hein⟩
      · exact absurd hn (renderNodes_no_edge b ex ar en)
      · obtain ⟨ar', j, d, hj, hjr, heq, _⟩ := renderEdges_mem g b es hes _ hein
        injection heq with h1 h2 h3
        subst h3
        refine ⟨d, (resolveSucc_mem g j d hjr), rfl, fun hdn => hdecl d ?_ hdn⟩
        exact resolveSucc_mem g j d hjr
  · intro en hmem
    rcases List.mem_append.mp hmem with hh | hb
    · have hen : en = getEntryPoint first := by
        simp only [List.mem_cons, List.not_mem_nil, or_false] at hh
        rcases hh with h1 | h1 | h1 | h1
        · exact Dir.noConfusion h1
        · exact Dir.noConfusion h1
        · exact Dir.noConfusion h1
        · injection h1
      subst hen
      have hfg : first ∈ g :=
        resolveAux_out_mem g (g.length + 1) b0 [] first (List.get?_mem hb0) hres
      exact ⟨first, hfg, rfl, fun hdn => hdecl first hfg hdn⟩
    · obtain ⟨b, hbg, bds, hbds, hdmem⟩ := renderBlocks_mem g g body hbody _ hb
      obtain ⟨hpt, hsplit⟩ := renderBlock_mem g b bds hbds _ hdmem
      rcases hsplit with hn | ⟨es, hes, hein⟩
      · exact absurd hn (renderNodes_no_rootEdge b en)
      · obtain ⟨ar', j, d, _, _, heq, _⟩ := renderEdges_mem g b es hes _ hein
        exact Dir.noConfusion heq

/-- Claim C9 witness: in the concrete loop graph `gw`, the back edge's target
identifier `B1` is also declared by the renderer. -/
theorem entry_point_spec_witness :
    ∃ d, d ∈ gw ∧ blockId 1 = getEntryPoint d ∧
      (isEmptyPassThrough d = false → blockId 1 ∈ declaredIds dsGw) :=
  (entry_point_spec gw "f" dsGw (by decide)).2.1 (blockId 2) "-.->|Loop|" (blockId 1)
    (by decide)

lemma pairwise_of_all_eq (l : List Nat) (a : Nat) (h : ∀ x ∈ l, x = a) :
    List.Pairwise (· ≤ ·) l := by
  induction l with
  | nil => exact List.Pairwise.nil
  | cons x t ih =>
    rw [List.pairwise_cons]
    refine ⟨fun y hy => ?_, ih (fun y hy => h y (List.mem_cons_of_mem _ hy))⟩
    rw [h x (List.mem_cons_self _ _), h y (List.mem_cons_of_mem _ hy)]

lemma renderBlocks_sorted (g : CFG) :
    ∀ l ds, renderBlocks g l = some ds → List.Pairwise (· ≤ ·) (l.map Block.index) →
      List.Pairwise (· ≤ ·) (nodeIndices ds) ∧
      (∀ i ∈ nodeIndices ds, ∃ b, b ∈ l ∧ b.index = i) := by
  intro l
  induction l with
  | nil =>
    intro ds h _
    injection h with h
    subst h
    exact ⟨List.Pairwise.nil, by simp [nodeIndices]⟩
  | cons b rest ih =>
    intro ds h hsort
    unfold renderBlocks at h
    cases hb : renderBlock g b with
    | none => rw [hb] at h; simp at h
    | some bds =>
      rw [hb] at h
      simp only [Option.some_bind] at h
      obtain ⟨rds, hrds, rfl⟩ := Option.map_eq_some'.mp h
      rw [List.map_cons, List.pairwise_cons] at hsort
      obtain ⟨hble0, hsort'⟩ := hsort
      obtain ⟨hs1, hs2⟩ := ih rds hrds hsort'
      have hbdsix : ∀ i ∈ nodeIndices bds, i = b.index := by
        intro i hi
        obtain ⟨dd, hdd, hix⟩ := List.mem_filterMap.mp hi
        obtain ⟨hpt, hsplit⟩ := renderBlock_mem g b bds hb dd hdd
        rcases hsplit with hn | ⟨es, hes, hein⟩
        · rcases renderNodes_shape b dd hn with h1 | h1
          · rw [h1] at hix
            injection hix with hix
            exact hix.symm
          · rw [h1] at hix
            simp [nodeIndex?] at hix
        · obtain ⟨ar, j, dtgt, _, _, heq, _⟩ := renderEdges_mem g b es hes dd hein
          rw [heq] at hix
          simp [nodeIndex?] at hix
      have hble : ∀ i ∈ nodeIndices rds, b.index ≤ i := by
        intro i hi
        obtain ⟨b', hb', rfl⟩ := hs2 i hi
        exact hble0 _ (List.mem_map_of_mem _ hb')
      constructor
      · show List.Pairwise (· ≤ ·) (nodeIndices (bds ++ rds))
        unfold nodeIndices
        rw [List.filterMap_append, List.pairwise_append]
        refine ⟨pairwise_of_all_eq _ b.index hbdsix, hs1, ?_⟩
        intro x hx y hy
        have hxe := hbdsix x hx
        have hye := hble y hy
        omega
      · intro i hi
        unfold nodeIndices at hi
        rw [List.filterMap_append, List.mem_append] at hi
        rcases hi with h1 | h2
        · exact ⟨b, List.mem_cons_self _ _, (hbdsix i h1).symm⟩
        · obtain ⟨b', hb', hbi⟩ := hs2 i h2
          exact ⟨b', List.mem_cons_of_mem _ hb', hbi⟩

lemma wf_map_index (g : CFG) (hwf : WF g) : g.map Block.index = List.range g.length := by
  apply List.ext_get?
  intro i
  by_cases hi : i < g.length
  · obtain ⟨b, hb, _, hbi⟩ := hwf.find_of_lt hi
    rw [List.get?_map, List.get?_range hi]
    unfold findBlock at hb
    rw [hb]
    simp [hbi]
  · rw [List.get?_map]
    have h1 : g.get? i = none := List.get?_eq_none.mpr (by omega)
    have h2 : (List.range g.length).get? i = none :=
      List.get?_eq_none.mpr (by rw [List.length_range]; omega)
    rw [h1, h2]
    rfl

/-- Claim C10 (confirmed): the rendering pass is deterministic — two runs on
the same filtered block graph and function name produce the same directive
list and the same output string — and the node declarations are emitted in
ascending block-index order. -/
theorem render_deterministic (g : CFG) (s : String) (hwf : WF g) (ds₁ ds₂ : List Dir)
    (h₁ : renderAll g s = some ds₁) (h₂ : renderAll g s = some ds₂) :
    ds₁ = ds₂ ∧ toOutput ds₁ = toOutput ds₂ ∧
    List.Sorted (· ≤ ·) (nodeIndices ds₁) := by
  have heq : ds₁ = ds₂ := by
    rw [h₁] at h₂
    injection h₂
  refine ⟨heq, by rw [heq], ?_⟩
  obtain ⟨b0, first, body, hb0, hres, hbody, rfl⟩ := renderAll_eq g s ds₁ h₁
  have hgsort : List.Pairwise (· ≤ ·) (g.map Block.index) := by
    rw [wf_map_index g hwf]
    exact (List.pairwise_lt_range g.length).imp (fun h => Nat.le_of_lt h)
  have hbody_sorted := (renderBlocks_sorted g g body hbody hgsort).1
  show List.Pairwise (· ≤ ·) (nodeIndices _)
  unfold nodeIndices
  rw [List.filterMap_append]
  have hhdr : ([Dir.classLine classDefRootLine, Dir.classLine classDefEndLine,
      Dir.rootNode s, Dir.rootEdge (getEntryPoint first)].filterMap nodeIndex?) = [] := rfl
  rw [hhdr, List.nil_append]
  exact hbody_sorted

/-- Claim C10 witness: two renders of the concrete loop graph `gw` agree, and
its node declarations come out in ascending index order. -/
theorem render_deterministic_witness :
    dsGw = dsGw ∧ toOutput dsGw = toOutput dsGw ∧
    List.Sorted (· ≤ ·) (nodeIndices dsGw) :=
  render_deterministic gw "f" (show wfB gw = true by decide) dsGw dsGw (by decide) (by decide)

end Flowgen
